import Mathlib

/-!
Verification of the declarative HTML cleaning engine of the 今天看啥 WeChat
RSS utility (html-cleaner / rss-parser / types of src/lib/utils/jtks).

The DOM is modelled as a first-child / next-sibling tree, the shape used by
the underlying htmlparser2 document: `Node.nil` ends a sibling chain,
`Node.text s sib` is a text node, and `Node.elem i tag attrs child sib` is an
element carrying a unique identity `i` (standing for the object identity of
the mutable DOM node), its tag name, its attribute list, its first child and
its next sibling.  A "chain" (a `Node`) therefore plays the role of a list of
DOM children.  `cheerio.load` wraps a fragment in the standard
html > (head, body) scaffolding; `mkDoc` reproduces that, with the fixed
identities 0 (html), 1 (head) and 2 (body).
-/

namespace Jtks

/-- DOM node: first-child / next-sibling encoding of the parsed tree. -/
inductive Node where
  | nil : Node
  | text (s : String) (sib : Node) : Node
  | elem (id : Nat) (tag : String) (attrs : List (String × String)) (child : Node) (sib : Node) : Node
deriving Repr, DecidableEq

/-- First value bound to an attribute name (the parser keeps one value per name). -/
def lookupAttr (attrs : List (String × String)) (name : String) : Option String :=
  match attrs with
  | [] => none
  | (n, v) :: rest => if n == name then some v else lookupAttr rest name

/-- Whitespace class used by JavaScript string trimming and by the \s regex class
(the common members; exotic unicode spaces behave alike for our inputs). -/
def isJsWs (c : Char) : Bool :=
  c == ' ' || c == '\t' || c == '\n' || c == '\r' ||
  c == '\u000B' || c == '\u000C' || c == '\u00A0' || c == '\u3000' || c == '\uFEFF'

/-- listPrefix a b: the char list a is a prefix of b. -/
def listPrefix : List Char → List Char → Bool
  | [], _ => true
  | _ :: _, [] => false
  | a :: as, b :: bs => a == b && listPrefix as bs

/-- listInfix needle hay: needle occurs as a contiguous run inside hay. -/
def listInfix (needle : List Char) : List Char → Bool
  | [] => listPrefix needle []
  | c :: cs => listPrefix needle (c :: cs) || listInfix needle cs

/-- JavaScript String.prototype.includes. -/
def strContains (s sub : String) : Bool := listInfix sub.data s.data

/-- JavaScript String.prototype.startsWith. -/
def strStartsWith (s pre : String) : Bool := listPrefix pre.data s.data

/-- JavaScript String.prototype.slice(1) (drop the first code unit). -/
def strDropOne (s : String) : String := String.mk (s.data.drop 1)

/-- JavaScript String.prototype.trim over a char list. -/
def jsTrimList (l : List Char) : List Char :=
  ((l.dropWhile isJsWs).reverse.dropWhile isJsWs).reverse

/-- JavaScript String.prototype.trim. -/
def jsTrim (s : String) : String := String.mk (jsTrimList s.data)

/-- Accumulating splitter for whitespace-separated class tokens. -/
def classTokensAux (cur : List Char) : List Char → List String
  | [] => if cur.isEmpty then [] else [String.mk cur.reverse]
  | c :: cs =>
    if isJsWs c then
      if cur.isEmpty then classTokensAux [] cs
      else String.mk cur.reverse :: classTokensAux [] cs
    else classTokensAux (c :: cur) cs

/-- The whitespace-separated tokens of a class attribute value. -/
def classTokens (v : String) : List String := classTokensAux [] v.data

/-- Split a style attribute value on semicolons. -/
def splitSemiAux (cur : List Char) : List Char → List (List Char)
  | [] => [cur.reverse]
  | c :: cs => if c == ';' then cur.reverse :: splitSemiAux [] cs else splitSemiAux (c :: cur) cs

/-- Split a style declaration at its first colon. -/
def splitColon (acc : List Char) : List Char → Option (List Char × List Char)
  | [] => none
  | c :: cs => if c == ':' then some (acc.reverse, cs) else splitColon (c :: acc) cs

/-- Value of an inline-style property, later declarations overriding earlier
ones, mirroring the cheerio css accessor on the style attribute. -/
def styleProp (style : String) (prop : String) : Option String :=
  (splitSemiAux [] style.data).foldl
    (fun acc decl =>
      match splitColon [] decl with
      | some (k, v) =>
        if String.mk (jsTrimList k) == prop then some (String.mk (jsTrimList v)) else acc
      | none => acc)
    none

/-- Atom of the embedded regular-expression dialect (literal char, dot, or an
escaped literal); the configured rule patterns use only this fragment of the
host regex language. -/
inductive RAtom where
  | ch (c : Char)
  | dot
deriving Repr, DecidableEq

/-- One quantified piece of a regular expression. -/
inductive RPiece where
  | once (a : RAtom)
  | star (a : RAtom)
  | plus (a : RAtom)
  | opt (a : RAtom)
deriving Repr, DecidableEq

/-- Parsed pattern: optional start/end anchors around a piece sequence. -/
structure RModel where
  anchorStart : Bool
  pieces : List RPiece
  anchorEnd : Bool
deriving Repr, DecidableEq

/-- Parse the piece list of a pattern (no anchors), rejecting constructs
outside the embedded dialect. -/
def parsePieces : List Char → Option (List RPiece)
  | [] => some []
  | '\\' :: [] => none
  | '\\' :: c :: rest =>
    (parsePiecesQ (RAtom.ch c) rest)
  | '.' :: rest => parsePiecesQ RAtom.dot rest
  | c :: rest =>
    if c == '*' || c == '+' || c == '?' || c == '(' || c == ')' || c == '[' ||
       c == ']' || c == '|' || c == '^' || c == '$' then none
    else parsePiecesQ (RAtom.ch c) rest
where
  /-- Attach an optional quantifier to the atom just read. -/
  parsePiecesQ (a : RAtom) : List Char → Option (List RPiece)
  | '*' :: rest => (parsePieces rest).map (RPiece.star a :: ·)
  | '+' :: rest => (parsePieces rest).map (RPiece.plus a :: ·)
  | '?' :: rest => (parsePieces rest).map (RPiece.opt a :: ·)
  | rest => (parsePieces rest).map (RPiece.once a :: ·)

/-- Parse a whole pattern, peeling leading ^ and trailing $ anchors. -/
def parseRegex (pattern : String) : Option RModel :=
  let cs := pattern.data
  let (anchS, cs) := match cs with
    | '^' :: rest => (true, rest)
    | _ => (false, cs)
  let (anchE, cs) := match cs.reverse with
    | '$' :: restRev => (true, restRev.reverse)
    | _ => (false, cs)
  (parsePieces cs).map (fun ps => ⟨anchS, ps, anchE⟩)

/-- Does an atom match one character. -/
def atomMatches : RAtom → Char → Bool
  | .ch c, x => c == x
  | .dot, x => !(x == '\n')

/-- Remainders after consuming zero or more atom matches. -/
def starRem (a : RAtom) : List Char → List (List Char)
  | [] => [[]]
  | c :: cs => (c :: cs) :: (if atomMatches a c then starRem a cs else [])

/-- Remainders after matching a piece sequence at the head of the input. -/
def matchPieces : List RPiece → List Char → List (List Char)
  | [], rem => [rem]
  | .once a :: ps, rem =>
    match rem with
    | [] => []
    | c :: cs => if atomMatches a c then matchPieces ps cs else []
  | .star a :: ps, rem => (starRem a rem).flatMap (matchPieces ps)
  | .plus a :: ps, rem =>
    match rem with
    | [] => []
    | c :: cs => if atomMatches a c then (starRem a cs).flatMap (matchPieces ps) else []
  | .opt a :: ps, rem =>
    (matchPieces ps rem) ++
      (match rem with
       | [] => []
       | c :: cs => if atomMatches a c then matchPieces ps cs else [])

/-- Does the piece sequence match starting exactly at the given input, with
the given end-anchoring requirement. -/
def matchHere (ps : List RPiece) (anchE : Bool) (cs : List Char) : Bool :=
  (matchPieces ps cs).any (fun rem => !anchE || rem.isEmpty)

/-- Search the pattern at every start position, left to right. -/
def searchFrom (ps : List RPiece) (anchE : Bool) : List Char → Bool
  | [] => matchHere ps anchE []
  | c :: cs => matchHere ps anchE (c :: cs) || searchFrom ps anchE cs

/-- JavaScript new RegExp(pattern).test(s) for the embedded dialect
(unanchored containment search unless the pattern itself is anchored). -/
def regexTest (pattern s : String) : Bool :=
  match parseRegex pattern with
  | none => false
  | some r =>
    if r.anchorStart then matchHere r.pieces r.anchorEnd s.data
    else searchFrom r.pieces r.anchorEnd s.data

/-- Simple selector: the CSS fragment used by the configured rules
(tag, .class, #id, [attr*=value] substring test, :empty). -/
inductive SSel where
  | tag (t : String)
  | cls (c : String)
  | idSel (v : String)
  | attrContains (name value : String)
  | empty
deriving Repr, DecidableEq

/-- A compound selector is a conjunction of simple selectors; a selector
group (the argument of a cheerio query) is a comma list of compounds. -/
abbrev Selector := List (List SSel)

/-- Does one simple selector match an element with the given tag, attribute
list and child chain. -/
def sselMatches (s : SSel) (t : String) (attrs : List (String × String)) (child : Node) : Bool :=
  match s with
  | .tag tg => t == tg
  | .cls c =>
    match lookupAttr attrs "class" with
    | some v => (classTokens v).contains c
    | none => false
  | .idSel v => lookupAttr attrs "id" == some v
  | .attrContains n val =>
    match lookupAttr attrs n with
    | some v => !(val == "") && strContains v val
    | none => false
  | .empty => child == Node.nil

/-- Compound selector match (all simple selectors hold). -/
def compoundMatches (c : List SSel) (t : String) (attrs : List (String × String)) (child : Node) : Bool :=
  c.all (fun s => sselMatches s t attrs child)

/-- Selector-group match (some compound holds). -/
def selMatches (sel : Selector) (t : String) (attrs : List (String × String)) (child : Node) : Bool :=
  sel.any (fun c => compoundMatches c t attrs child)

/-- Identities of the elements of a document satisfying an entry predicate, in
document (pre-order) order: the node itself, then its subtree, then its
following siblings. -/
def collectP (p : String → List (String × String) → Node → Bool) : Node → List Nat
  | .nil => []
  | .text _ sib => collectP p sib
  | .elem i t a c sib =>
    (if p t a c then [i] else []) ++ collectP p c ++ collectP p sib

/-- cheerio query: document-ordered identities of the elements matching a
selector group. -/
def selectIds (sel : Selector) (d : Node) : List Nat :=
  collectP (selMatches sel) d

/-- Tag, attributes and child chain of the element with identity i. -/
def findElem (i : Nat) : Node → Option (String × List (String × String) × Node)
  | .nil => none
  | .text _ sib => findElem i sib
  | .elem j t a c sib =>
    if j == i then some (t, a, c)
    else
      match findElem i c with
      | some r => some r
      | none => findElem i sib

/-- Concatenated text of a chain and of all subtrees hanging off it
(cheerio text() of an element is chainText of its child chain). -/
def chainText : Node → String
  | .nil => ""
  | .text s sib => s ++ chainText sib
  | .elem _ _ _ c sib => chainText c ++ chainText sib

/-- textMatch clause of a rule (types.ts). -/
structure TextMatch where
  type : String
  value : String
deriving Repr, DecidableEq

/-- attrMatch clause of a rule (types.ts). -/
structure AttrMatch where
  name : String
  pattern : String
deriving Repr, DecidableEq

/-- CleanRule (types.ts): selector, action tag and the optional filters.  The
action and the textMatch type are strings at runtime (TypeScript unions are
erased), so they are modelled as strings. -/
structure CleanRule where
  description : String
  selector : Selector
  action : String
  textMatch : Option TextMatch
  attrMatch : Option AttrMatch
deriving Repr, DecidableEq

/-- Rule text filter: the switch over the four match modes, any other mode
value rejecting the node (html-cleaner applyFilters, text branch). -/
def textMatchTest (tm : TextMatch) (txt : String) : Bool :=
  if tm.type == "startsWith" then strStartsWith txt tm.value
  else if tm.type == "contains" then strContains txt tm.value
  else if tm.type == "equals" then txt == tm.value
  else if tm.type == "regex" then regexTest tm.value txt
  else false

/-- Rule attribute filter: absent or empty attribute rejects; a pattern
starting with a caret does a literal prefix test of its remaining suffix;
any other pattern is compiled and searched as a regular expression
(html-cleaner applyFilters, attr branch). -/
def attrMatchTest (am : AttrMatch) (attrs : List (String × String)) : Bool :=
  match lookupAttr attrs am.name with
  | none => false
  | some v =>
    if v == "" then false
    else if strStartsWith am.pattern "^" then strStartsWith v (strDropOne am.pattern)
    else regexTest am.pattern v

/-- applyFilters (html-cleaner): narrow a selected id set by the textMatch
filter and then the attrMatch filter. -/
def applyFilters (root : Node) (ids : List Nat) (rule : CleanRule) : List Nat :=
  let ids1 :=
    match rule.textMatch with
    | none => ids
    | some tm =>
      ids.filter (fun i =>
        match findElem i root with
        | some (_, _, c) => textMatchTest tm (jsTrim (chainText c))
        | none => false)
  match rule.attrMatch with
  | none => ids1
  | some am =>
    ids1.filter (fun i =>
      match findElem i root with
      | some (_, a, _) => attrMatchTest am a
      | none => false)

/-- Remove every element whose identity is listed, with its whole subtree
(the domutils removal as invoked by cheerio remove; absent identities are
ignored, matching removal of already-detached nodes being a no-op). -/
def removeIds (s : List Nat) : Node → Node
  | .nil => .nil
  | .text t sib => .text t (removeIds s sib)
  | .elem j tg a c sib =>
    if s.contains j then removeIds s sib
    else .elem j tg a (removeIds s c) (removeIds s sib)

/-- Is the element with identity i attached in the document. -/
def presentB (i : Nat) : Node → Bool
  | .nil => false
  | .text _ sib => presentB i sib
  | .elem j _ _ c sib => j == i || presentB i c || presentB i sib

/-- All element identities of a document, in document order. -/
def idsOf : Node → List Nat
  | .nil => []
  | .text _ sib => idsOf sib
  | .elem j _ _ c sib => j :: (idsOf c ++ idsOf sib)

/-- Element identities at the top level of a chain, in order. -/
def sibElems : Node → List Nat
  | .nil => []
  | .text _ sib => sibElems sib
  | .elem j _ _ _ sib => j :: sibElems sib

/-- Is i a top-level element of this chain. -/
def chainHasTop (i : Nat) : Node → Bool
  | .nil => false
  | .text _ sib => chainHasTop i sib
  | .elem j _ _ _ sib => j == i || chainHasTop i sib

/-- Following element siblings of i inside the chain that holds it at top
level (none when i is not in this subtree at all). -/
def nextAllSearch (i : Nat) : Node → Option (List Nat)
  | .nil => none
  | .text _ sib => nextAllSearch i sib
  | .elem j _ _ c sib =>
    if j == i then some (sibElems sib)
    else
      match nextAllSearch i c with
      | some r => some r
      | none => nextAllSearch i sib

/-- cheerio nextAll: identities of the following element siblings of i. -/
def nextAllIds (i : Nat) (d : Node) : List Nat :=
  (nextAllSearch i d).getD []

/-- Top-level element identities of a chain except i. -/
def chainElemsExcept (i : Nat) : Node → List Nat
  | .nil => []
  | .text _ sib => chainElemsExcept i sib
  | .elem j _ _ _ sib =>
    if j == i then chainElemsExcept i sib else j :: chainElemsExcept i sib

/-- Element siblings of i: all elements of the chain that holds i at top
level, except i itself (none when i is not in this subtree). -/
def siblingsSearch (i : Nat) : Node → Option (List Nat)
  | .nil => none
  | .text _ sib => siblingsSearch i sib
  | .elem j _ _ c sib =>
    if j == i then some (chainElemsExcept i sib)
    else
      match siblingsSearch i c with
      | some r => some r
      | none =>
        match siblingsSearch i sib with
        | some r => some (if chainHasTop i sib then j :: r else r)
        | none => none

/-- cheerio siblings of one element i (same-parent elements, excluding i
itself but not excluding other members of a query set). -/
def elemSiblingIds (i : Nat) (d : Node) : List Nat :=
  (siblingsSearch i d).getD []

/-- Parent search, carrying the identity of the enclosing element. -/
def parentSearch (cur : Option Nat) (i : Nat) : Node → Option (Option Nat)
  | .nil => none
  | .text _ sib => parentSearch cur i sib
  | .elem j _ _ c sib =>
    if j == i then some cur
    else
      match parentSearch (some j) i c with
      | some r => some r
      | none => parentSearch cur i sib

/-- cheerio parent of element i: none when i is absent or sits on the root
chain (where the parent is the document root, on which nextAll and remove
are no-ops). -/
def parentOf (i : Nat) (d : Node) : Option Nat :=
  (parentSearch none i d).getD none

/-- The each callback of the remove-after branch: remove the node's
following siblings, then the node; a node already detached when its turn
comes has no effect on the document, which the presentB guard models.  The
two successive removals mirror the two remove calls of the source. -/
def removeAfterStep (dd : Node) (i : Nat) : Node :=
  if presentB i dd then removeIds [i] (removeIds (nextAllIds i dd) dd) else dd

/-- The each callback of the remove-parent-after branch: resolve the parent,
remove its following siblings, then the parent itself; a parent that is the
document root (a top-chain node) yields no removal, as nextAll and remove on
the root are no-ops. -/
def removeParentAfterStep (dd : Node) (i : Nat) : Node :=
  if presentB i dd then
    match parentOf i dd with
    | some p => removeIds [p] (removeIds (nextAllIds p dd) dd)
    | none => dd
  else dd

/-- executeAction (html-cleaner): dispatch on the action string.  Query sets
iterate over their selection snapshot in document order. -/
def executeAction (d : Node) (ids : List Nat) (action : String) : Node :=
  if ids.isEmpty then d
  else if action == "keep-only" then
    removeIds (ids.flatMap (fun i => elemSiblingIds i d)) d
  else if action == "remove" then
    removeIds ids d
  else if action == "remove-after" then
    ids.foldl removeAfterStep d
  else if action == "remove-parent-after" then
    ids.foldl removeParentAfterStep d
  else d

/-- applyCleanRule (html-cleaner): select, filter, act. -/
def applyCleanRule (d : Node) (rule : CleanRule) : Node :=
  let ids := selectIds rule.selector d
  let ids2 := applyFilters d ids rule
  executeAction d ids2 rule.action

/-- The html > (head, body) scaffolding cheerio load wraps a fragment in,
with fixed identities 0, 1, 2 for html, head, body. -/
def mkDoc (f : Node) : Node :=
  .elem 0 "html" [] (.elem 1 "head" [] .nil (.elem 2 "body" [] f .nil)) .nil

/-- The document left when the body element has been removed. -/
def headOnly : Node :=
  .elem 0 "html" [] (.elem 1 "head" [] .nil .nil) .nil

/-- Child chain of the first body element of the document, pre-order: the
content serialized by the body html() call, none when the body itself was
removed (where html() yields null and the engine falls back to the empty
string, i.e. the empty chain). -/
def findBodyChain : Node → Option Node
  | .nil => none
  | .text _ sib => findBodyChain sib
  | .elem _ t _ c sib =>
    if t == "body" then some c
    else
      match findBodyChain c with
      | some r => some r
      | none => findBodyChain sib

/-- cleanHtml (html-cleaner): load the fragment, apply every rule in order,
return the body content (empty when the body is gone). -/
def cleanHtml (f : Node) (rules : List CleanRule) : Node :=
  (findBodyChain (rules.foldl applyCleanRule (mkDoc f))).getD .nil

/-- Serialize attributes. -/
def renderAttrs : List (String × String) → String
  | [] => ""
  | (n, v) :: rest => " " ++ n ++ "=\"" ++ v ++ "\"" ++ renderAttrs rest

/-- Serialize a chain back to markup (entity escaping is irrelevant for the
inputs considered and is omitted). -/
def render : Node → String
  | .nil => ""
  | .text s sib => s ++ render sib
  | .elem _ t a c sib => "<" ++ t ++ renderAttrs a ++ ">" ++ render c ++ "</" ++ t ++ ">" ++ render sib

/-- Attribute value with inline-style fallback: attr(name) with the empty or
absent value falling through to css(name), as the JavaScript or-else does. -/
def attrOrCss (attrs : List (String × String)) (name : String) : Option String :=
  match lookupAttr attrs name with
  | some v =>
    if v == "" then
      match lookupAttr attrs "style" with
      | some st => styleProp st name
      | none => none
    else some v
  | none =>
    match lookupAttr attrs "style" with
    | some st => styleProp st name
    | none => none

/-- Dimension check of the tracking-pixel pass: the resolved value is the
string 1 or 1px. -/
def isOnePx (v : Option String) : Bool :=
  v == some "1" || v == some "1px"

/-- Was an img selected for removal by the tracking-pixel pass. -/
def isTrackingPixel (attrs : List (String × String)) : Bool :=
  isOnePx (attrOrCss attrs "width") && isOnePx (attrOrCss attrs "height")

/-- Select a group and remove every selected element (the common
query-then-remove step of the junk cleaner). -/
def removeSel (sel : Selector) (d : Node) : Node :=
  removeIds (selectIds sel d) d

/-- Pass 1 of cleanWechatCommonIssues: remove 1 by 1 tracking-pixel imgs
(each img of the snapshot is tested on its own attributes, so the one-by-one
removal of the source equals this batch removal). -/
def passPixels (d : Node) : Node :=
  removeIds
    ((selectIds [[SSel.tag "img"]] d).filter (fun i =>
      match findElem i d with
      | some (_, a, _) => isTrackingPixel a
      | none => false))
    d

/-- Pass 2: remove hidden elements, four successive queries. -/
def passHidden (d : Node) : Node :=
  removeSel [[SSel.attrContains "style" "visibility: hidden"]]
    (removeSel [[SSel.attrContains "style" "visibility:hidden"]]
      (removeSel [[SSel.attrContains "style" "display: none"]]
        (removeSel [[SSel.attrContains "style" "display:none"]] d)))

/-- Pass 3: remove empty paragraphs and divs (one query, then one removal:
containers emptied by this very pass stay). -/
def passEmpties (d : Node) : Node :=
  removeSel [[SSel.tag "p", SSel.empty], [SSel.tag "div", SSel.empty]] d

/-- Pass 4: remove iframe, script and style elements. -/
def passTags (d : Node) : Node :=
  removeSel [[SSel.tag "iframe"], [SSel.tag "script"], [SSel.tag "style"]] d

/-- Pass 5: remove WeChat widget elements by class substring. -/
def passWidgets (d : Node) : Node :=
  removeSel [[SSel.attrContains "class" "js_wx_"]] d

/-- cleanWechatCommonIssues (html-cleaner): load, run the five fixed passes
in their declared order, return the body content. -/
def cleanWechatCommonIssues (f : Node) : Node :=
  (findBodyChain (passWidgets (passTags (passEmpties (passHidden (passPixels (mkDoc f))))))).getD .nil

/-- Names for the five passes, to state order (in)dependence. -/
inductive PassId where
  | pixels
  | hidden
  | empties
  | tags
  | widgets
deriving Repr, DecidableEq

/-- Run one named pass. -/
def runPass : PassId → Node → Node
  | .pixels, d => passPixels d
  | .hidden, d => passHidden d
  | .empties, d => passEmpties d
  | .tags, d => passTags d
  | .widgets, d => passWidgets d

/-- Run a sequence of named passes over a loaded fragment and return the
body content, the declared order [pixels, hidden, empties, tags, widgets]
reproducing cleanWechatCommonIssues. -/
def runPasses (ps : List PassId) (f : Node) : Node :=
  (findBodyChain (ps.foldl (fun d p => runPass p d) (mkDoc f))).getD .nil

/-- cleanWechatHtml (html-cleaner): the custom rules, then the generic junk
cleaner. -/
def cleanWechatHtml (f : Node) (rules : List CleanRule) : Node :=
  cleanWechatCommonIssues (cleanHtml f rules)

/-- Does a char list belong to the language ws* hyphen ws* 今天看啥 ws* of the
tail regex of the rss parser (whitespace runs are maximal, since neither the
hyphen nor the literal starts with whitespace, so greedy scanning is exact). -/
def jtksTailMatch (cs : List Char) : Bool :=
  match cs.dropWhile isJsWs with
  | '-' :: rest =>
    let r := rest.dropWhile isJsWs
    listPrefix "今天看啥".data r && (r.drop 4).all isJsWs
  | _ => false

/-- Index of the leftmost position whose suffix matches the tail regex. -/
def jtksTailIndex : List Char → Option Nat
  | [] => none
  | c :: cs =>
    if jtksTailMatch (c :: cs) then some 0
    else (jtksTailIndex cs).map (· + 1)

/-- The feed title used by the rss parser: replace of the end-anchored
whitespace-hyphen-whitespace-今天看啥 suffix regex by the empty string
(leftmost match, as the non-global replace does). -/
def stripJtksSuffix (s : String) : String :=
  match jtksTailIndex s.data with
  | some i => String.mk (s.data.take i)
  | none => s

/-- The raw per-item fields extracted from the feed XML in stage 1. -/
structure RawItem where
  title : String
  link : String
  pubDate : String
  category : String
  description : String
deriving Repr, DecidableEq

/-- The fields of an emitted feed item that the parser computes from text
(dates are handed to an external date parser and are kept as raw text). -/
structure OutItem where
  title : String
  link : String
  description : String
  pubDate : String
  category : List String
  author : String
deriving Repr, DecidableEq

/-- Stage 2 of the extraction pipeline for one item (rss-parser step 5): a
non-empty description is cleaned, an empty one is left untouched and the
cleaners never run on it.  The cleaner runs over strings in the source; it
is abstracted as a string function parameter so that independence from it is
expressible. -/
def processDescription (cleaner : String → String) (raw : String) : String :=
  if raw == "" then raw else cleaner raw

/-- Build one emitted item from a raw item (rss-parser step 6). -/
def buildItem (cleaner : String → String) (feedTitle : String) (it : RawItem) : OutItem :=
  ⟨it.title, it.link, processDescription cleaner it.description, it.pubDate,
    (if it.category == "" then [] else [it.category]),
    stripJtksSuffix feedTitle⟩

/-- The emitted feed record of parseWechatRss. -/
structure OutFeed where
  title : String
  link : String
  description : String
  item : List OutItem
deriving Repr, DecidableEq

/-- parseWechatRss (rss-parser), from the already-extracted stage-1 fields:
cap the items at the limit, clean each description, suffix-strip the channel
title once for the feed title and once per item for the author. -/
def parseWechatRss (cleaner : String → String) (feedTitle feedLink feedDescription : String)
    (raws : List RawItem) (limit : Nat) : OutFeed :=
  ⟨stripJtksSuffix feedTitle, feedLink, feedDescription,
    (raws.take limit).map (buildItem cleaner feedTitle)⟩

/-- Identities of the proper ancestors of element i, outermost first. -/
def ancestorIds (i : Nat) : Node → List Nat
  | .nil => []
  | .text _ sib => ancestorIds i sib
  | .elem j _ _ c sib =>
    if j == i then []
    else if presentB i c then j :: ancestorIds i c else ancestorIds i sib

/-- The selected-and-filtered id set one rule acts on. -/
def matchedIds (d : Node) (rule : CleanRule) : List Nat :=
  applyFilters d (selectIds rule.selector d) rule

/-- The fused per-element predicate of one rule: selector match and both
optional filters, exactly what applyFilters leaves of a selected element. -/
def entryMatches (rule : CleanRule) (t : String) (a : List (String × String)) (c : Node) : Bool :=
  selMatches rule.selector t a c &&
  (match rule.textMatch with
   | none => true
   | some tm => textMatchTest tm (jsTrim (chainText c))) &&
  (match rule.attrMatch with
   | none => true
   | some am => attrMatchTest am a)

/-- A simple selector is node-local when its verdict depends only on the tag
and attributes of the element, never on its children. -/
def sselLocal : SSel → Bool
  | .empty => false
  | _ => true

/-- All simple selectors of a group are node-local. -/
def selLocal (sel : Selector) : Bool :=
  sel.all (fun comp => comp.all sselLocal)

/-- A rule is structurally local: no text filter, a node-local selector, and
no match on the html, head or body scaffolding elements (their attribute
lists are empty, so the nil-child probe decides the match for local rules). -/
def ruleGood (rule : CleanRule) : Bool :=
  rule.textMatch.isNone && selLocal rule.selector &&
    (["html", "head", "body"].all (fun t => !entryMatches rule t [] Node.nil))

/-- Well-formed fragment: element identities are distinct and avoid the
0, 1, 2 reserved for the scaffolding. -/
def WfChain (f : Node) : Prop :=
  (idsOf f).Nodup ∧ ∀ i ∈ idsOf f, 3 ≤ i

/-- Error taxonomy of the cleaning engine boundary: parse failure. -/
inductive CleanError where
  | parseFailed
deriving Repr, DecidableEq

/-- Modelled from the spec: the DOM adapter parse step (the cheerio load
call) is third-party code outside this repository; it implements the WHATWG
HTML parsing algorithm, which error-recovers on every input, so building a
Document from a string never fails. -/
def parseBuildFails (_html : String) : Bool := false

/-- cleanHtml wraps no try/catch around its load call and its select, filter
and removal steps are total, so the engine signals a parse error exactly
when the load itself does. -/
def cleanHtmlSignalsParseError (html : String) (_rules : List CleanRule) : Bool :=
  parseBuildFails html

/-! Concrete documents and rules used by the claim instances. -/

/-- div holding a marker s.m followed by two p elements (spec §8
RemoveAfter example). -/
def exRemoveAfter : Node :=
  .elem 3 "div" []
    (.elem 4 "s" [("class", "m")] (.text "M" .nil)
      (.elem 5 "p" [] (.text "P1" .nil)
        (.elem 6 "p" [] (.text "P2" .nil) .nil))) .nil

/-- The remove-after rule on the marker class. -/
def ruleRemoveAfter : CleanRule := ⟨"", [[SSel.cls "m"]], "remove-after", none, none⟩

/-- div holding two matched siblings of class k. -/
def exKeepOnly : Node :=
  .elem 3 "div" []
    (.elem 4 "b" [("class", "k")] (.text "A" .nil)
      (.elem 5 "i" [("class", "k")] (.text "B" .nil) .nil)) .nil

/-- The keep-only rule on class k. -/
def ruleKeepOnly : CleanRule := ⟨"", [[SSel.cls "k"]], "keep-only", none, none⟩

/-- A div whose only child is an empty div. -/
def exNestedDiv : Node := .elem 3 "div" [] (.elem 4 "div" [] .nil .nil) .nil

/-- Remove empty div elements. -/
def ruleEmptyDiv : CleanRule := ⟨"", [[SSel.tag "div", SSel.empty]], "remove", none, none⟩

/-- A kept element, then a div wrapping a matched i.x, then a matched
top-level b.x. -/
def exParentChain : Node :=
  .elem 3 "a" [] (.text "keep" .nil)
    (.elem 4 "div" [] (.elem 5 "i" [("class", "x")] (.text "A" .nil) .nil)
      (.elem 6 "b" [("class", "x")] (.text "B" .nil) .nil))

/-- A matched top-level div.x followed by a p element. -/
def exTopLevelMatch : Node :=
  .elem 3 "div" [("class", "x")] (.text "A" .nil)
    (.elem 4 "p" [] (.text "B" .nil) .nil)

/-- The remove-parent-after rule on class x. -/
def ruleParentAfter : CleanRule := ⟨"", [[SSel.cls "x"]], "remove-parent-after", none, none⟩

/-- A p element holding one tracking pixel img. -/
def exPixelPara : Node :=
  .elem 3 "p" []
    (.elem 4 "img" [("width", "1"), ("height", "1"), ("src", "t.gif")] .nil .nil) .nil

/-- section carrying the anchored darkmode class. -/
def exDarkmode : Node := .elem 3 "section" [("class", "js_darkmode__49")] (.text "t" .nil) .nil

/-- section carrying the darkmode marker not at the start of the class. -/
def exDarkmodeOther : Node :=
  .elem 3 "section" [("class", "other_js_darkmode__49")] (.text "t" .nil) .nil

/-- The section rule with the caret-anchored attribute pattern. -/
def ruleDarkmode : CleanRule :=
  ⟨"", [[SSel.tag "section"]], "remove-after", none, some ⟨"class", "^js_darkmode__"⟩⟩

/-- A local removal rule on class ad, used as idempotence witness. -/
def ruleAd : CleanRule := ⟨"", [[SSel.cls "ad"]], "remove", none, none⟩

/-- Apply a sequence of predicate-driven select-and-remove passes, the
common shape of the junk cleaner's queries. -/
def predPasses (preds : List (String → List (String × String) → Node → Bool)) (d : Node) : Node :=
  preds.foldl (fun dd q => removeIds (collectP q dd) dd) d

/-- The removal predicate of the tracking-pixel pass. -/
def pixelPred (t : String) (a : List (String × String)) (c : Node) : Bool :=
  selMatches [[SSel.tag "img"]] t a c && isTrackingPixel a

/-- The predicate sequences of the four attribute/tag-driven passes (the
empty-container pass is the structure-sensitive one and has no entry). -/
def passPreds : PassId → List (String → List (String × String) → Node → Bool)
  | .pixels => [pixelPred]
  | .hidden =>
    [selMatches [[SSel.attrContains "style" "display:none"]],
     selMatches [[SSel.attrContains "style" "display: none"]],
     selMatches [[SSel.attrContains "style" "visibility:hidden"]],
     selMatches [[SSel.attrContains "style" "visibility: hidden"]]]
  | .empties => [selMatches [[SSel.tag "p", SSel.empty], [SSel.tag "div", SSel.empty]]]
  | .tags => [selMatches [[SSel.tag "iframe"], [SSel.tag "script"], [SSel.tag "style"]]]
  | .widgets => [selMatches [[SSel.attrContains "class" "js_wx_"]]]

/-- A rule needs no further work on a document: for keep-only every matched
node already has no element siblings, and for the three removing actions
nothing is matched at all.  Other action strings never act. -/
def RuleDone (r : CleanRule) (d : Node) : Prop :=
  (r.action = "keep-only" → ∀ m ∈ matchedIds d r, elemSiblingIds m d = []) ∧
  ((r.action = "remove" ∨ r.action = "remove-after" ∨ r.action = "remove-parent-after") →
    matchedIds d r = [])

/-! Structural lemmas about removal, presence and identities. -/

theorem contains_iff_mem (l : List Nat) (i : Nat) : l.contains i = true ↔ i ∈ l :=
  List.elem_iff

theorem removeIds_empty (d : Node) : removeIds [] d = d := by
  induction d with
  | nil => rfl
  | text s sib ih => simp [removeIds, ih]
  | elem j tg a c sib ihc ihs => simp [removeIds, ihc, ihs]

theorem removeIds_removeIds (S T : List Nat) (d : Node) :
    removeIds S (removeIds T d) = removeIds (T ++ S) d := by
  induction d with
  | nil => rfl
  | text s sib ih => simp [removeIds, ih]
  | elem j tg a c sib ihc ihs =>
    by_cases hT : j ∈ T
    · simp [removeIds, hT, ihs]
    · by_cases hS : j ∈ S
      · simp [removeIds, hT, hS, ihs]
      · simp [removeIds, hT, hS, ihc, ihs]

theorem presentB_iff_mem_idsOf (i : Nat) (d : Node) : presentB i d = true ↔ i ∈ idsOf d := by
  induction d with
  | nil => simp [presentB, idsOf]
  | text s sib ih => simpa [presentB, idsOf] using ih
  | elem j tg a c sib ihc ihs =>
    simp only [presentB, idsOf, Bool.or_eq_true, beq_iff_eq, List.mem_cons, List.mem_append,
      ihc, ihs, or_assoc]
    constructor
    · rintro (h | h | h)
      · exact Or.inl h.symm
      · exact Or.inr (Or.inl h)
      · exact Or.inr (Or.inr h)
    · rintro (h | h | h)
      · exact Or.inl h.symm
      · exact Or.inr (Or.inl h)
      · exact Or.inr (Or.inr h)

theorem idsOf_removeIds_sublist (S : List Nat) (d : Node) :
    (idsOf (removeIds S d)).Sublist (idsOf d) := by
  induction d with
  | nil => simp [removeIds, idsOf]
  | text s sib ih => simpa [removeIds, idsOf] using ih
  | elem j tg a c sib ihc ihs =>
    by_cases hS : j ∈ S
    · have h1 : S.contains j = true := (contains_iff_mem S j).mpr hS
      simp only [removeIds, idsOf, if_pos h1]
      exact ihs.trans ((List.sublist_append_right _ _).cons j)
    · have h1 : ¬ (S.contains j = true) := fun hc => hS ((contains_iff_mem S j).mp hc)
      simp only [removeIds, idsOf, if_neg h1]
      exact (ihc.append ihs).cons₂ j

theorem presentB_removeIds_mono (S : List Nat) (i : Nat) (d : Node)
    (h : presentB i (removeIds S d) = true) : presentB i d = true := by
  rw [presentB_iff_mem_idsOf] at h ⊢
  exact (idsOf_removeIds_sublist S d).mem h

theorem presentB_removeIds_self (S : List Nat) (i : Nat) (d : Node) (h : i ∈ S) :
    presentB i (removeIds S d) = false := by
  induction d with
  | nil => rfl
  | text s sib ih => simpa [removeIds, presentB] using ih
  | elem j tg a c sib ihc ihs =>
    by_cases hj : j ∈ S
    · have h1 : S.contains j = true := (contains_iff_mem S j).mpr hj
      simp only [removeIds, if_pos h1]
      exact ihs
    · have h1 : ¬ (S.contains j = true) := fun hc => hj ((contains_iff_mem S j).mp hc)
      have hji : (j == i) = false := by
        simp only [beq_eq_false_iff_ne, ne_eq]
        rintro rfl
        exact hj h
      simp only [removeIds, if_neg h1, presentB, hji, Bool.false_or, Bool.or_eq_false_iff]
      exact ⟨ihc, ihs⟩

theorem nodup_parts {j : Nat} {tg : String} {a : List (String × String)} {c sib : Node}
    (h : (idsOf (Node.elem j tg a c sib)).Nodup) :
    (idsOf c).Nodup ∧ (idsOf sib).Nodup ∧ j ∉ idsOf c ∧ j ∉ idsOf sib ∧
      ∀ x ∈ idsOf c, x ∉ idsOf sib := by
  simp only [idsOf, List.nodup_cons, List.mem_append, List.nodup_append] at h
  obtain ⟨hj, hc, hs, hdisj⟩ := h
  exact ⟨hc, hs, fun hm => hj (Or.inl hm), fun hm => hj (Or.inr hm),
    fun x hx => hdisj hx⟩

theorem nodup_removeIds (S : List Nat) (d : Node) (h : (idsOf d).Nodup) :
    (idsOf (removeIds S d)).Nodup :=
  h.sublist (idsOf_removeIds_sublist S d)

theorem presentB_removeIds_of_absent (S : List Nat) (i : Nat) (d : Node)
    (h : presentB i d = false) : presentB i (removeIds S d) = false := by
  cases hr : presentB i (removeIds S d) with
  | false => rfl
  | true => rw [presentB_removeIds_mono S i d hr] at h; cases h

theorem presentB_removeIds_ancestor (S : List Nat) (i b : Nat) (d : Node)
    (hnd : (idsOf d).Nodup) (hb : b ∈ ancestorIds i d) (hS : b ∈ S) :
    presentB i (removeIds S d) = false := by
  induction d with
  | nil => rfl
  | text s sib ih => simpa [removeIds, presentB, ancestorIds] using ih (by simpa [idsOf] using hnd) (by simpa [ancestorIds] using hb)
  | elem j tg a c sib ihc ihs =>
    obtain ⟨hc, hs, hjc, hjs, hdisj⟩ := nodup_parts hnd
    by_cases hji : (j == i) = true
    · simp [ancestorIds, hji] at hb
    · by_cases hpc : presentB i c = true
      · have hanc : b ∈ j :: ancestorIds i c := by
          simpa [ancestorIds, hji, hpc] using hb
        have hisib : presentB i sib = false := by
          rw [Bool.eq_false_iff]
          intro hx
          exact hdisj i ((presentB_iff_mem_idsOf i c).mp hpc) ((presentB_iff_mem_idsOf i sib).mp hx)
        rcases List.mem_cons.mp hanc with hbj | hbc
        · subst hbj
          have h1 : S.contains b = true := (contains_iff_mem S b).mpr hS
          simp only [removeIds, if_pos h1]
          exact presentB_removeIds_of_absent S i sib hisib
        · by_cases hjS : j ∈ S
          · have h1 : S.contains j = true := (contains_iff_mem S j).mpr hjS
            simp only [removeIds, if_pos h1]
            exact presentB_removeIds_of_absent S i sib hisib
          · have h1 : ¬ (S.contains j = true) := fun hx => hjS ((contains_iff_mem S j).mp hx)
            simp only [removeIds, if_neg h1, presentB, hji, Bool.false_or,
              Bool.or_eq_false_iff]
            exact ⟨ihc hc hbc, presentB_removeIds_of_absent S i sib hisib⟩
      · have hanc : b ∈ ancestorIds i sib := by
          simpa [ancestorIds, hji, hpc] using hb
        have hrs : presentB i (removeIds S sib) = false := ihs hs hanc
        by_cases hjS : j ∈ S
        · have h1 : S.contains j = true := (contains_iff_mem S j).mpr hjS
          simp only [removeIds, if_pos h1]
          exact hrs
        · have h1 : ¬ (S.contains j = true) := fun hx => hjS ((contains_iff_mem S j).mp hx)
          have hpc' : presentB i c = false := by
            cases hx : presentB i c with
            | false => rfl
            | true => exact absurd hx hpc
          simp only [removeIds, if_neg h1, presentB, hji, Bool.false_or,
            Bool.or_eq_false_iff]
          exact ⟨presentB_removeIds_of_absent S i c hpc', hrs⟩

theorem presentB_removeIds_survives (S : List Nat) (i : Nat) (d : Node)
    (h : presentB i d = true) (hiS : i ∉ S) (hanc : ∀ b ∈ ancestorIds i d, b ∉ S) :
    presentB i (removeIds S d) = true := by
  induction d with
  | nil => cases h
  | text s sib ih =>
    simp only [presentB, removeIds] at h ⊢
    exact ih (by simpa [presentB] using h) (by simpa [ancestorIds] using hanc)
  | elem j tg a c sib ihc ihs =>
    by_cases hji : (j == i) = true
    · have hj : j ∉ S := by
        rw [beq_iff_eq] at hji
        subst hji
        exact hiS
      simp [removeIds, hj, presentB, hji]
    · by_cases hpc : presentB i c = true
      · have hancc : ∀ b ∈ j :: ancestorIds i c, b ∉ S := by
          intro b hb
          exact hanc b (by simpa [ancestorIds, hji, hpc] using hb)
        have hj : j ∉ S := hancc j (List.mem_cons_self j _)
        have hrc : presentB i (removeIds S c) = true :=
          ihc hpc (fun b hb => hancc b (List.mem_cons_of_mem j hb))
        simp [removeIds, hj, presentB, hrc]
      · have hps : presentB i sib = true := by
          simp only [presentB, Bool.or_eq_true] at h
          rcases h with (h | h) | h
          · exact absurd h (by simpa using hji)
          · exact absurd h hpc
          · exact h
        have hancs : ∀ b ∈ ancestorIds i sib, b ∉ S := by
          intro b hb
          exact hanc b (by simpa [ancestorIds, hji, hpc] using hb)
        have hrs : presentB i (removeIds S sib) = true := ihs hps hancs
        by_cases hjS : j ∈ S
        · have h1 : S.contains j = true := (contains_iff_mem S j).mpr hjS
          simp only [removeIds, if_pos h1]
          exact hrs
        · simp [removeIds, hjS, presentB, hrs]

theorem presentB_removeIds_reason (S : List Nat) (i : Nat) (d : Node)
    (h : presentB i d = true) (hr : presentB i (removeIds S d) = false) :
    i ∈ S ∨ ∃ b ∈ ancestorIds i d, b ∈ S := by
  by_contra hcon
  push_neg at hcon
  obtain ⟨hiS, hanc⟩ := hcon
  rw [presentB_removeIds_survives S i d h hiS hanc] at hr
  cases hr

theorem findElem_eq_none_iff (i : Nat) (d : Node) :
    findElem i d = none ↔ presentB i d = false := by
  induction d with
  | nil => simp [findElem, presentB]
  | text s sib ih => simpa [findElem, presentB] using ih
  | elem j tg a c sib ihc ihs =>
    by_cases hji : (j == i) = true
    · simp [findElem, presentB, hji]
    · simp only [findElem, presentB, hji, if_neg, Bool.false_or, Bool.or_eq_false_iff,
        Bool.not_eq_true]
      cases hc : findElem i c with
      | some r =>
        have hpc : presentB i c = true := by
          cases hx : presentB i c with
          | true => rfl
          | false => rw [ihc.mpr hx] at hc; cases hc
        simp [hc, hpc]
      | none => simp [hc, ihs, ihc.mp hc]

theorem collectP_sublist_idsOf (p : String → List (String × String) → Node → Bool) (d : Node) :
    (collectP p d).Sublist (idsOf d) := by
  induction d with
  | nil => simp [collectP, idsOf]
  | text s sib ih => simpa [collectP, idsOf] using ih
  | elem j tg a c sib ihc ihs =>
    by_cases hp : p tg a c = true
    · simp only [collectP, idsOf, hp, if_pos, List.singleton_append]
      exact (ihc.append ihs).cons₂ j
    · simp only [collectP, idsOf, hp, if_neg, List.nil_append, Bool.false_eq_true,
        not_false_iff]
      exact (ihc.append ihs).cons j

theorem mem_idsOf_of_mem_collectP {p : String → List (String × String) → Node → Bool}
    {d : Node} {i : Nat} (h : i ∈ collectP p d) : i ∈ idsOf d :=
  (collectP_sublist_idsOf p d).mem h

theorem mem_collectP_elem {p : String → List (String × String) → Node → Bool}
    {j : Nat} {tg : String} {a : List (String × String)} {c sib : Node} {i : Nat} :
    i ∈ collectP p (Node.elem j tg a c sib) ↔
      (p tg a c = true ∧ i = j) ∨ i ∈ collectP p c ∨ i ∈ collectP p sib := by
  by_cases hp : p tg a c = true
  · simp [collectP, hp]
  · simp [collectP, hp]

theorem mem_collectP_iff (p : String → List (String × String) → Node → Bool) (i : Nat)
    (d : Node) (hnd : (idsOf d).Nodup) :
    i ∈ collectP p d ↔
      ∃ t a c, findElem i d = some (t, a, c) ∧ p t a c = true := by
  induction d with
  | nil => simp [collectP, findElem]
  | text s sib ih => simpa [collectP, findElem, idsOf] using ih (by simpa [idsOf] using hnd)
  | elem j tg a c sib ihc ihs =>
    obtain ⟨hc, hs, hjc, hjs, hdisj⟩ := nodup_parts hnd
    rw [mem_collectP_elem]
    by_cases hji : i = j
    · subst hji
      have hfe : findElem i (Node.elem i tg a c sib) = some (tg, a, c) := by
        simp [findElem]
      rw [hfe]
      constructor
      · rintro (⟨hp, -⟩ | hm | hm)
        · exact ⟨tg, a, c, rfl, hp⟩
        · exact absurd (mem_idsOf_of_mem_collectP hm) hjc
        · exact absurd (mem_idsOf_of_mem_collectP hm) hjs
      · rintro ⟨t1, a1, c1, he, hp⟩
        injection he with he2
        injection he2 with h1 he3
        injection he3 with h2 h3
        subst h1; subst h2; subst h3
        exact Or.inl ⟨hp, rfl⟩
    · have hjbeq : (j == i) = false := by
        simp [beq_eq_false_iff_ne]
        exact fun he => hji he.symm
      cases hfc : findElem i c with
      | some r =>
        have hfe : findElem i (Node.elem j tg a c sib) = findElem i c := by
          simp [findElem, hjbeq, hfc]
        have hpc : presentB i c = true := by
          cases hx : presentB i c with
          | true => rfl
          | false => rw [(findElem_eq_none_iff i c).mpr hx] at hfc; cases hfc
        have hns : i ∉ collectP p sib := fun hm =>
          hdisj i ((presentB_iff_mem_idsOf i c).mp hpc) (mem_idsOf_of_mem_collectP hm)
        rw [hfe]
        constructor
        · rintro (⟨-, hij⟩ | hm | hm)
          · exact absurd hij hji
          · exact (ihc hc).mp hm
          · exact absurd hm hns
        · intro hm
          exact Or.inr (Or.inl ((ihc hc).mpr hm))
      | none =>
        have hfe : findElem i (Node.elem j tg a c sib) = findElem i sib := by
          simp [findElem, hjbeq, hfc]
        have hpc : presentB i c = false := (findElem_eq_none_iff i c).mp hfc
        have hnc : i ∉ collectP p c := by
          intro hm
          rw [(presentB_iff_mem_idsOf i c).mpr (mem_idsOf_of_mem_collectP hm)] at hpc
          cases hpc
        rw [hfe]
        constructor
        · rintro (⟨-, hij⟩ | hm | hm)
          · exact absurd hij hji
          · exact absurd hm hnc
          · exact (ihs hs).mp hm
        · intro hm
          exact Or.inr (Or.inr ((ihs hs).mpr hm))

theorem sublist_eq_filter {l₁ l : List Nat} (h : l₁.Sublist l) (hnd : l.Nodup) :
    l₁ = l.filter (fun x => decide (x ∈ l₁)) := by
  induction h with
  | slnil => rfl
  | @cons l₁ t b h ih =>
    have hnd' := List.nodup_cons.mp hnd
    have hbl : b ∉ l₁ := fun hm => hnd'.1 (h.subset hm)
    simp only [List.filter_cons]
    rw [if_neg (by simpa using hbl)]
    exact ih hnd'.2
  | @cons₂ l₁' t b h ih =>
    have hnd' := List.nodup_cons.mp hnd
    simp only [List.filter_cons]
    rw [if_pos (by simp)]
    have hft : t.filter (fun x => decide (x ∈ b :: l₁')) = t.filter (fun x => decide (x ∈ l₁')) := by
      apply List.filter_congr
      intro x hx
      have hxb : x ≠ b := fun he => hnd'.1 (he ▸ hx)
      simp [List.mem_cons, hxb]
    rw [hft]
    exact congrArg (b :: ·) (ih hnd'.2)

theorem sublist_eq_of_mem_iff {l₁ l₂ l : List Nat} (h₁ : l₁.Sublist l) (h₂ : l₂.Sublist l)
    (hnd : l.Nodup) (hm : ∀ x, x ∈ l₁ ↔ x ∈ l₂) : l₁ = l₂ := by
  rw [sublist_eq_filter h₁ hnd, sublist_eq_filter h₂ hnd]
  apply List.filter_congr
  intro x _
  simp [hm x]

theorem filter_collectP (p q : String → List (String × String) → Node → Bool)
    (f : Nat → Bool) (d : Node) (hnd : (idsOf d).Nodup)
    (hf : ∀ i t a c, findElem i d = some (t, a, c) → f i = q t a c) :
    ((collectP p d).filter f) = collectP (fun t a c => p t a c && q t a c) d := by
  apply sublist_eq_of_mem_iff
    ((List.filter_sublist _).trans (collectP_sublist_idsOf p d))
    (collectP_sublist_idsOf _ d) hnd
  intro x
  rw [List.mem_filter, mem_collectP_iff p x d hnd, mem_collectP_iff _ x d hnd]
  constructor
  · rintro ⟨⟨t, a, c, hfind, hp⟩, hq⟩
    rw [hf x t a c hfind] at hq
    refine ⟨t, a, c, hfind, ?_⟩
    rw [Bool.and_eq_true]
    exact ⟨hp, hq⟩
  · rintro ⟨t, a, c, hfind, hpq⟩
    rw [Bool.and_eq_true] at hpq
    refine ⟨⟨t, a, c, hfind, hpq.1⟩, ?_⟩
    rw [hf x t a c hfind]
    exact hpq.2

theorem collectP_ext {p p' : String → List (String × String) → Node → Bool}
    (h : ∀ t a c, p t a c = p' t a c) (d : Node) : collectP p d = collectP p' d := by
  have he : p = p' := funext (fun t => funext (fun a => funext (fun c => h t a c)))
  rw [he]

theorem matchedIds_sublist (d : Node) (rule : CleanRule) :
    (matchedIds d rule).Sublist (idsOf d) := by
  unfold matchedIds applyFilters selectIds
  cases rule.textMatch with
  | none =>
    cases rule.attrMatch with
    | none => exact collectP_sublist_idsOf _ d
    | some am => exact (List.filter_sublist _).trans (collectP_sublist_idsOf _ d)
  | some tm =>
    cases rule.attrMatch with
    | none => exact (List.filter_sublist _).trans (collectP_sublist_idsOf _ d)
    | some am =>
      exact ((List.filter_sublist _).trans (List.filter_sublist _)).trans
        (collectP_sublist_idsOf _ d)

theorem mem_matchedIds_iff (d : Node) (rule : CleanRule) (i : Nat)
    (hnd : (idsOf d).Nodup) :
    i ∈ matchedIds d rule ↔
      ∃ t a c, findElem i d = some (t, a, c) ∧ entryMatches rule t a c = true := by
  unfold matchedIds applyFilters selectIds
  cases htm : rule.textMatch with
  | none =>
    cases ham : rule.attrMatch with
    | none =>
      rw [mem_collectP_iff _ i d hnd]
      simp [entryMatches, htm, ham]
    | some am =>
      rw [List.mem_filter, mem_collectP_iff _ i d hnd]
      constructor
      · rintro ⟨⟨t, a, c, hfind, hp⟩, hq⟩
        simp only [hfind] at hq
        refine ⟨t, a, c, hfind, ?_⟩
        simp [entryMatches, htm, ham, hp, hq]
      · rintro ⟨t, a, c, hfind, hm⟩
        simp only [entryMatches, htm, ham, Bool.and_eq_true, Bool.and_true] at hm
        refine ⟨⟨t, a, c, hfind, hm.1⟩, ?_⟩
        simp only [hfind]
        exact hm.2
  | some tm =>
    cases ham : rule.attrMatch with
    | none =>
      rw [List.mem_filter, mem_collectP_iff _ i d hnd]
      constructor
      · rintro ⟨⟨t, a, c, hfind, hp⟩, hq⟩
        simp only [hfind] at hq
        refine ⟨t, a, c, hfind, ?_⟩
        simp [entryMatches, htm, ham, hp, hq]
      · rintro ⟨t, a, c, hfind, hm⟩
        simp only [entryMatches, htm, ham, Bool.and_eq_true, Bool.and_true] at hm
        refine ⟨⟨t, a, c, hfind, hm.1⟩, ?_⟩
        simp only [hfind]
        exact hm.2
    | some am =>
      rw [List.mem_filter, List.mem_filter, mem_collectP_iff _ i d hnd]
      constructor
      · rintro ⟨⟨⟨t, a, c, hfind, hp⟩, hq1⟩, hq2⟩
        simp only [hfind] at hq1 hq2
        refine ⟨t, a, c, hfind, ?_⟩
        simp [entryMatches, htm, ham, hp, hq1, hq2]
      · rintro ⟨t, a, c, hfind, hm⟩
        simp only [entryMatches, htm, ham, Bool.and_eq_true] at hm
        refine ⟨⟨⟨t, a, c, hfind, hm.1.1⟩, ?_⟩, ?_⟩
        · simp only [hfind]
          exact hm.1.2
        · simp only [hfind]
          exact hm.2

theorem matchedIds_eq_collect (d : Node) (rule : CleanRule) (hnd : (idsOf d).Nodup) :
    matchedIds d rule = collectP (entryMatches rule) d := by
  apply sublist_eq_of_mem_iff (matchedIds_sublist d rule) (collectP_sublist_idsOf _ d) hnd
  intro x
  rw [mem_matchedIds_iff d rule x hnd, mem_collectP_iff _ x d hnd]

theorem listPrefix_iff_append (a b : List Char) :
    listPrefix a b = true ↔ ∃ r, b = a ++ r := by
  induction a generalizing b with
  | nil => simp [listPrefix]
  | cons x xs ih =>
    cases b with
    | nil => simp [listPrefix]
    | cons y ys =>
      simp only [listPrefix, Bool.and_eq_true, beq_iff_eq, ih, List.cons_append]
      constructor
      · rintro ⟨rfl, r, rfl⟩
        exact ⟨r, rfl⟩
      · rintro ⟨r, he⟩
        injection he with h1 h2
        exact ⟨h1.symm, r, h2⟩

theorem textMatchTest_unknown (tm : TextMatch) (txt : String)
    (h : tm.type ∉ ["startsWith", "contains", "equals", "regex"]) :
    textMatchTest tm txt = false := by
  simp only [List.mem_cons, List.mem_singleton, not_or] at h
  obtain ⟨h1, h2, h3, h4⟩ := h
  simp [textMatchTest, h1, h2, h3, h4]

/-- C7: for a textMatch whose mode value is outside the four known modes, the
predicate evaluator rejects every node of every selection (it returns the
empty set) and, being a total function, never raises. -/
theorem unknown_text_mode_rejects_all (d : Node) (ids : List Nat) (rule : CleanRule)
    (tm : TextMatch) (htm : rule.textMatch = some tm)
    (h : tm.type ∉ ["startsWith", "contains", "equals", "regex"]) :
    applyFilters d ids rule = [] := by
  have hpred : ∀ i : Nat, (match findElem i d with
      | some (_, _, c) => textMatchTest tm (jsTrim (chainText c))
      | none => false) = false := by
    intro i
    cases hfc : findElem i d with
    | some r =>
      obtain ⟨t, a, c⟩ := r
      simp [textMatchTest_unknown tm _ h]
    | none => rfl
  apply List.eq_nil_iff_forall_not_mem.mpr
  intro i hi
  unfold applyFilters at hi
  rw [htm] at hi
  cases ham : rule.attrMatch with
  | none =>
    rw [ham] at hi
    dsimp only at hi
    rw [List.mem_filter] at hi
    have h2 := hi.2
    simp only [hpred i] at h2
    cases h2
  | some am =>
    rw [ham] at hi
    dsimp only at hi
    rw [List.mem_filter] at hi
    rw [List.mem_filter] at hi
    have h2 := hi.1.2
    simp only [hpred i] at h2
    cases h2

/-- C7 witness: an unknown mode value selects nothing on a concrete document. -/
theorem unknown_text_mode_rejects_all_witness :
    applyFilters (mkDoc exKeepOnly) [4, 5]
      ⟨"", [[SSel.cls "k"]], "remove", some ⟨"garbled", "A"⟩, none⟩ = [] :=
  unknown_text_mode_rejects_all (mkDoc exKeepOnly) [4, 5] _ ⟨"garbled", "A"⟩ rfl
    (by decide)

/-- C4: the attribute filter excludes nodes with an absent or empty named
attribute; a caret-prefixed pattern keeps a node exactly when the remaining
suffix starts the attribute value (anchored at the start: there is a
continuation r with value = suffix ++ r); any other pattern is tested as a
regular expression searched anywhere in the value.  The darkmode section of
the spec example is matched, the one with a preceding junk prefix is not. -/
theorem attr_match_semantics :
    (∀ (am : AttrMatch) (attrs : List (String × String)),
      lookupAttr attrs am.name = none → attrMatchTest am attrs = false) ∧
    (∀ (am : AttrMatch) (attrs : List (String × String)),
      lookupAttr attrs am.name = some "" → attrMatchTest am attrs = false) ∧
    (∀ (am : AttrMatch) (attrs : List (String × String)) (v : String),
      strStartsWith am.pattern "^" = true →
      lookupAttr attrs am.name = some v → v ≠ "" →
      (attrMatchTest am attrs = true ↔ ∃ r, v.data = (strDropOne am.pattern).data ++ r)) ∧
    (∀ (am : AttrMatch) (attrs : List (String × String)) (v : String),
      strStartsWith am.pattern "^" = false →
      lookupAttr attrs am.name = some v → v ≠ "" →
      (attrMatchTest am attrs = true ↔ regexTest am.pattern v = true)) ∧
    matchedIds (mkDoc exDarkmode) ruleDarkmode = [3] ∧
    matchedIds (mkDoc exDarkmodeOther) ruleDarkmode = [] := by
  refine ⟨?_, ?_, ?_, ?_, by decide, by decide⟩
  · intro am attrs hl
    simp [attrMatchTest, hl]
  · intro am attrs hl
    simp [attrMatchTest, hl]
  · intro am attrs v hpre hl hv
    have hvne : (v == "") = false := by
      simp [hv]
    simp only [attrMatchTest, hl, hvne, Bool.false_eq_true, if_false, hpre, if_true]
    exact listPrefix_iff_append (strDropOne am.pattern).data v.data
  · intro am attrs v hpre hl hv
    have hvne : (v == "") = false := by
      simp [hv]
    simp [attrMatchTest, hl, hvne, hpre]

/-- C4 witness: the caret branch applied to the darkmode example yields the
anchored-decomposition of its class value. -/
theorem attr_match_semantics_witness :
    attrMatchTest ⟨"class", "^js_darkmode__"⟩ [("class", "js_darkmode__49")] = true ∧
    ∃ r, "js_darkmode__49".data = (strDropOne "^js_darkmode__").data ++ r :=
  ⟨by decide,
    (attr_match_semantics.2.2.1 ⟨"class", "^js_darkmode__"⟩ [("class", "js_darkmode__49")]
      "js_darkmode__49" (by decide) (by decide) (by decide)).mp (by decide)⟩

/-- C5: building a Document never fails (the load call implements the
error-recovering WHATWG algorithm) and the engine adds no failure of its
own, so it signals a parse error exactly when parsing fails, which is never:
both sides of the biconditional are false on every input. -/
theorem clean_parse_error_iff (html : String) (rules : List CleanRule) :
    (cleanHtmlSignalsParseError html rules = true ↔ parseBuildFails html = true) ∧
    cleanHtmlSignalsParseError html rules = false ∧
    parseBuildFails html = false :=
  ⟨Iff.rfl, rfl, rfl⟩

/-- C2 at the failing input: with two matched nodes sharing one parent, the
keep-only executor removes both matched nodes themselves (each is a sibling
of the other, and the cheerio-style sibling set of a query set excludes only
the node it is computed from), leaving the parent empty; the matched set was
[4, 5] and the output retains neither. -/
theorem keep_only_removes_sibling_matches :
    matchedIds (mkDoc exKeepOnly) ruleKeepOnly = [4, 5] ∧
    cleanHtml exKeepOnly [ruleKeepOnly] = Node.elem 3 "div" [] Node.nil Node.nil ∧
    presentB 4 (cleanHtml exKeepOnly [ruleKeepOnly]) = false ∧
    presentB 5 (cleanHtml exKeepOnly [ruleKeepOnly]) = false := by
  refine ⟨by decide, by decide, by decide, by decide⟩

/-- C8: when the extracted description of an item is empty, stage 2 is
skipped entirely: the output description is empty, and the built item does
not depend on the cleaning function at all (no cleaner is invoked). -/
theorem empty_description_skips_cleaning (cleaner cleaner2 : String → String)
    (feedTitle : String) (it : RawItem) (h : it.description = "") :
    (buildItem cleaner feedTitle it).description = "" ∧
    buildItem cleaner feedTitle it = buildItem cleaner2 feedTitle it := by
  constructor
  · simp [buildItem, processDescription, h]
  · simp [buildItem, processDescription, h]

/-- C8 witness: a concrete item with an empty description passes through
unchanged for any two cleaners. -/
theorem empty_description_skips_cleaning_witness :
    (buildItem (fun s => s ++ "x") "t" ⟨"a", "l", "d", "c", ""⟩).description = "" ∧
    buildItem (fun s => s ++ "x") "t" ⟨"a", "l", "d", "c", ""⟩ =
      buildItem (fun _ => "other") "t" ⟨"a", "l", "d", "c", ""⟩ :=
  empty_description_skips_cleaning (fun s => s ++ "x") (fun _ => "other") "t"
    ⟨"a", "l", "d", "c", ""⟩ rfl

/-- C10: the emitted feed title is the channel title with the trailing
今天看啥 suffix stripped, and every emitted item carries that same stripped
title as its author; concretely the suffixed title loses its tail and an
unsuffixed title is unchanged. -/
theorem feed_title_and_author_stripped (cleaner : String → String)
    (feedTitle feedLink feedDescription : String) (raws : List RawItem) (limit : Nat) :
    (parseWechatRss cleaner feedTitle feedLink feedDescription raws limit).title =
      stripJtksSuffix feedTitle ∧
    (∀ it ∈ (parseWechatRss cleaner feedTitle feedLink feedDescription raws limit).item,
      it.author = stripJtksSuffix feedTitle) ∧
    stripJtksSuffix "虎嗅网 - 今天看啥" = "虎嗅网" ∧
    stripJtksSuffix "ABC" = "ABC" := by
  refine ⟨rfl, ?_, by decide, by decide⟩
  intro it hit
  unfold parseWechatRss at hit
  simp only [List.mem_map] at hit
  obtain ⟨raw, _, rfl⟩ := hit
  rfl

/-- C10 witness: two items of one concrete feed both carry the stripped
channel title as author, which is also the emitted feed title. -/
theorem feed_title_and_author_stripped_witness :
    (parseWechatRss (fun s => s) "虎嗅网 - 今天看啥" "L" "D"
      [⟨"a", "l", "p", "c", "x"⟩, ⟨"b", "l2", "p2", "c2", "y"⟩] 20).title = "虎嗅网" ∧
    ∀ it ∈ (parseWechatRss (fun s => s) "虎嗅网 - 今天看啥" "L" "D"
      [⟨"a", "l", "p", "c", "x"⟩, ⟨"b", "l2", "p2", "c2", "y"⟩] 20).item,
      it.author = "虎嗅网" := by
  have h := feed_title_and_author_stripped (fun s => s) "虎嗅网 - 今天看啥" "L" "D"
    [⟨"a", "l", "p", "c", "x"⟩, ⟨"b", "l2", "p2", "c2", "y"⟩] 20
  have hs : stripJtksSuffix "虎嗅网 - 今天看啥" = "虎嗅网" := h.2.2.1
  exact ⟨by rw [h.1, hs], fun it hit => by rw [h.2.1 it hit, hs]⟩

/-- C1 counterexample: with the structure-sensitive selector div:empty and
the remove action, cleaning the nested-div fragment once leaves the outer
div (now empty) in place, and cleaning that output again removes it, so the
engine is not idempotent on this rule set. -/
theorem clean_not_idempotent :
    cleanHtml (cleanHtml exNestedDiv [ruleEmptyDiv]) [ruleEmptyDiv] ≠
      cleanHtml exNestedDiv [ruleEmptyDiv] ∧
    cleanHtml exNestedDiv [ruleEmptyDiv] = Node.elem 3 "div" [] Node.nil Node.nil ∧
    cleanHtml (cleanHtml exNestedDiv [ruleEmptyDiv]) [ruleEmptyDiv] = Node.nil := by
  refine ⟨by decide, by decide, by decide⟩

/-- C6 counterexample: running the five fixed passes with the empty-container
pass first (a permutation of the declared order) keeps the p element that
the declared order deletes, so the passes are not order-independent. -/
theorem passes_not_order_independent :
    ([PassId.empties, PassId.pixels, PassId.hidden, PassId.tags, PassId.widgets].Perm
      [PassId.pixels, PassId.hidden, PassId.empties, PassId.tags, PassId.widgets]) ∧
    cleanWechatCommonIssues exPixelPara =
      runPasses [PassId.pixels, PassId.hidden, PassId.empties, PassId.tags, PassId.widgets]
        exPixelPara ∧
    runPasses [PassId.empties, PassId.pixels, PassId.hidden, PassId.tags, PassId.widgets]
        exPixelPara ≠ cleanWechatCommonIssues exPixelPara ∧
    cleanWechatCommonIssues exPixelPara = Node.nil ∧
    runPasses [PassId.empties, PassId.pixels, PassId.hidden, PassId.tags, PassId.widgets]
        exPixelPara = Node.elem 3 "p" [] Node.nil Node.nil := by
  refine ⟨by decide, by decide, by decide, by decide, by decide⟩

/-- C9 counterexample: the rule matches the top-level element b.x (a direct
child of the body), yet the cleaned output is not empty: processing the
earlier match i.x removed b.x together with its parent div, so when b.x's
turn came it was already detached and the body was never removed. -/
theorem remove_parent_after_top_level_not_empty :
    (6 ∈ matchedIds (mkDoc exParentChain) ruleParentAfter) ∧
    chainHasTop 6 exParentChain = true ∧
    cleanHtml exParentChain [ruleParentAfter] =
      Node.elem 3 "a" [] (Node.text "keep" Node.nil) Node.nil ∧
    cleanHtml exParentChain [ruleParentAfter] ≠ Node.nil := by
  refine ⟨by decide, by decide, by decide, by decide⟩

theorem presentB_of_mem_matchedIds {d : Node} {rule : CleanRule} {i : Nat}
    (h : i ∈ matchedIds d rule) : presentB i d = true :=
  (presentB_iff_mem_idsOf i d).mpr ((matchedIds_sublist d rule).mem h)

theorem idsOf_mkDoc (f : Node) : idsOf (mkDoc f) = 0 :: 1 :: 2 :: idsOf f := by
  simp [mkDoc, idsOf]

theorem nodup_mkDoc (f : Node) (hwf : WfChain f) : (idsOf (mkDoc f)).Nodup := by
  obtain ⟨hnd, hge⟩ := hwf
  rw [idsOf_mkDoc]
  refine List.nodup_cons.mpr ⟨?_, List.nodup_cons.mpr ⟨?_, List.nodup_cons.mpr ⟨?_, hnd⟩⟩⟩
  · intro h
    simp only [List.mem_cons] at h
    rcases h with h | h | h
    · exact absurd h (by decide)
    · exact absurd h (by decide)
    · have := hge 0 h
      omega
  · intro h
    simp only [List.mem_cons] at h
    rcases h with h | h
    · exact absurd h (by decide)
    · have := hge 1 h
      omega
  · intro h
    have := hge 2 h
    omega

theorem findBodyChain_removeIds_none (S : List Nat) (d : Node)
    (h : findBodyChain d = none) : findBodyChain (removeIds S d) = none := by
  induction d with
  | nil => rfl
  | text s sib ih => simpa [findBodyChain, removeIds] using ih (by simpa [findBodyChain] using h)
  | elem j tg a c sib ihc ihs =>
    have hparts : (tg == "body") = false ∧ findBodyChain c = none ∧ findBodyChain sib = none := by
      by_cases hb : (tg == "body") = true
      · rw [findBodyChain, if_pos hb] at h
        cases h
      · have hb' : (tg == "body") = false := by
          cases hx : (tg == "body") with
          | true => exact absurd hx hb
          | false => rfl
        rw [findBodyChain, if_neg hb] at h
        cases hfc : findBodyChain c with
        | some r => rw [hfc] at h; cases h
        | none =>
          rw [hfc] at h
          refine ⟨hb', rfl, ?_⟩
          simpa using h
    obtain ⟨hb, hc, hs⟩ := hparts
    by_cases hj : j ∈ S
    · have h1 : S.contains j = true := (contains_iff_mem S j).mpr hj
      simp only [removeIds, if_pos h1]
      exact ihs hs
    · have h1 : ¬ (S.contains j = true) := fun hx => hj ((contains_iff_mem S j).mp hx)
      simp only [removeIds, if_neg h1, findBodyChain, hb, Bool.false_eq_true, if_false]
      rw [ihc hc]
      exact ihs hs

theorem exists_removal_foldl {α : Type} (step : Node → α → Node)
    (hstep : ∀ dc x, ∃ T, step dc x = removeIds T dc) (l : List α) (dc : Node) :
    ∃ T, l.foldl step dc = removeIds T dc := by
  induction l generalizing dc with
  | nil => exact ⟨[], (removeIds_empty dc).symm⟩
  | cons x l ih =>
    obtain ⟨T1, h1⟩ := hstep dc x
    obtain ⟨T2, h2⟩ := ih (step dc x)
    refine ⟨T1 ++ T2, ?_⟩
    rw [List.foldl_cons, h2, h1, removeIds_removeIds]

theorem removeAfterStep_shape (dc : Node) (i : Nat) :
    ∃ T, removeAfterStep dc i = removeIds T dc := by
  unfold removeAfterStep
  by_cases hp : presentB i dc = true
  · refine ⟨nextAllIds i dc ++ [i], ?_⟩
    rw [if_pos hp, removeIds_removeIds]
  · refine ⟨[], ?_⟩
    rw [if_neg hp, removeIds_empty]

theorem removeParentAfterStep_shape (dc : Node) (i : Nat) :
    ∃ T, removeParentAfterStep dc i = removeIds T dc := by
  unfold removeParentAfterStep
  by_cases hp : presentB i dc = true
  · cases hpar : parentOf i dc with
    | some p =>
      refine ⟨nextAllIds p dc ++ [p], ?_⟩
      simp only [if_pos hp, hpar]
      rw [removeIds_removeIds]
    | none =>
      refine ⟨[], ?_⟩
      simp only [if_pos hp, hpar]
      rw [removeIds_empty]
  · refine ⟨[], ?_⟩
    rw [if_neg hp, removeIds_empty]

theorem executeAction_removal_shape (d : Node) (ids : List Nat) (action : String) :
    ∃ T, executeAction d ids action = removeIds T d := by
  unfold executeAction
  by_cases he : ids.isEmpty
  · exact ⟨[], by rw [if_pos he, removeIds_empty]⟩
  · rw [if_neg he]
    by_cases h1 : action == "keep-only"
    · exact ⟨_, by rw [if_pos h1]⟩
    · rw [if_neg h1]
      by_cases h2 : action == "remove"
      · exact ⟨ids, by rw [if_pos h2]⟩
      · rw [if_neg h2]
        by_cases h3 : action == "remove-after"
        · rw [if_pos h3]
          exact exists_removal_foldl removeAfterStep removeAfterStep_shape ids d
        · rw [if_neg h3]
          by_cases h4 : action == "remove-parent-after"
          · rw [if_pos h4]
            exact exists_removal_foldl removeParentAfterStep removeParentAfterStep_shape ids d
          · rw [if_neg h4]
            exact ⟨[], (removeIds_empty d).symm⟩

theorem applyCleanRule_removal_shape (d : Node) (rule : CleanRule) :
    ∃ T, applyCleanRule d rule = removeIds T d :=
  executeAction_removal_shape d (matchedIds d rule) rule.action

theorem findBodyChain_rules_none (rules : List CleanRule) (d : Node)
    (h : findBodyChain d = none) :
    findBodyChain (rules.foldl applyCleanRule d) = none := by
  induction rules generalizing d with
  | nil => exact h
  | cons r rules ih =>
    rw [List.foldl_cons]
    apply ih
    obtain ⟨T, hT⟩ := applyCleanRule_removal_shape d r
    rw [hT]
    exact findBodyChain_removeIds_none T d h

theorem sibElems_sublist_idsOf (d : Node) : (sibElems d).Sublist (idsOf d) := by
  induction d with
  | nil => simp [sibElems, idsOf]
  | text s sib ih => simpa [sibElems, idsOf] using ih
  | elem j tg a c sib ihc ihs =>
    simp only [sibElems, idsOf]
    exact (ihs.trans (List.sublist_append_right _ _)).cons₂ j

theorem chainHasTop_iff_mem (m : Nat) (d : Node) :
    chainHasTop m d = true ↔ m ∈ sibElems d := by
  induction d with
  | nil => simp [chainHasTop, sibElems]
  | text s sib ih => simpa [chainHasTop, sibElems] using ih
  | elem j tg a c sib ihc ihs =>
    simp only [chainHasTop, sibElems, Bool.or_eq_true, beq_iff_eq, List.mem_cons, ihs]
    constructor
    · rintro (h | h)
      · exact Or.inl h.symm
      · exact Or.inr h
    · rintro (h | h)
      · exact Or.inl h.symm
      · exact Or.inr h

theorem parentSearch_eq_none_iff (cur : Option Nat) (m : Nat) (d : Node) :
    parentSearch cur m d = none ↔ presentB m d = false := by
  induction d generalizing cur with
  | nil => simp [parentSearch, presentB]
  | text s sib ih => simpa [parentSearch, presentB] using ih cur
  | elem j tg a c sib ihc ihs =>
    by_cases hj : (j == m) = true
    · simp [parentSearch, presentB, hj]
    · simp only [parentSearch, presentB, hj, Bool.false_eq_true, if_false, Bool.false_or]
      cases hc : parentSearch (some j) m c with
      | some r =>
        have hpc : presentB m c = true := by
          cases hx : presentB m c with
          | true => rfl
          | false => rw [(ihc (some j)).mpr hx] at hc; cases hc
        simp [hc, hpc]
      | none =>
        have hpc : presentB m c = false := (ihc (some j)).mp hc
        simp [hc, ihs cur, hpc]

theorem parentSearch_of_top (cur : Option Nat) (m : Nat) (d : Node)
    (hnd : (idsOf d).Nodup) (h : chainHasTop m d = true) :
    parentSearch cur m d = some cur := by
  induction d with
  | nil => cases h
  | text s sib ih =>
    simp only [parentSearch]
    exact ih (by simpa [idsOf] using hnd) (by simpa [chainHasTop] using h)
  | elem j tg a c sib ihc ihs =>
    obtain ⟨hc, hs, hjc, hjs, hdisj⟩ := nodup_parts hnd
    by_cases hj : (j == m) = true
    · simp [parentSearch, hj]
    · have hts : chainHasTop m sib = true := by
        simpa [chainHasTop, hj] using h
      have hms : m ∈ idsOf sib :=
        (sibElems_sublist_idsOf sib).mem ((chainHasTop_iff_mem m sib).mp hts)
      have hmc : presentB m c = false := by
        cases hx : presentB m c with
        | false => rfl
        | true =>
          exact absurd hms (by
            intro hmm
            exact hdisj m ((presentB_iff_mem_idsOf m c).mp hx) hmm)
      have hcn : parentSearch (some j) m c = none :=
        (parentSearch_eq_none_iff (some j) m c).mpr hmc
      simp only [parentSearch, hj, Bool.false_eq_true, if_false, hcn]
      exact ihs hs hts

theorem parentOf_mkDoc_top (f : Node) (m : Nat) (hwf : WfChain f)
    (htop : chainHasTop m f = true) : parentOf m (mkDoc f) = some 2 := by
  obtain ⟨hnd, hge⟩ := hwf
  have hm3 : 3 ≤ m :=
    hge m ((sibElems_sublist_idsOf f).mem ((chainHasTop_iff_mem m f).mp htop))
  have h0 : (0 == m) = false := by
    simp only [beq_eq_false_iff_ne, ne_eq]
    omega
  have h1 : (1 == m) = false := by
    simp only [beq_eq_false_iff_ne, ne_eq]
    omega
  have h2 : (2 == m) = false := by
    simp only [beq_eq_false_iff_ne, ne_eq]
    omega
  have hf : parentSearch (some 2) m f = some (some 2) := parentSearch_of_top (some 2) m f hnd htop
  simp [parentOf, parentSearch, mkDoc, h0, h1, h2, hf]

/-- C9 amended: when the first matched node in document order is a direct
child of the body, remove-parent-after removes the body element itself and
the engine returns the empty fragment for the whole document, whatever rules
follow. -/
theorem remove_parent_after_first_top_level_empties
    (f : Node) (rule : CleanRule) (rest : List CleanRule) (m : Nat)
    (hwf : WfChain f) (hact : rule.action = "remove-parent-after")
    (hhead : (matchedIds (mkDoc f) rule).head? = some m)
    (htop : chainHasTop m f = true) :
    cleanHtml f (rule :: rest) = Node.nil := by
  obtain ⟨M', hM⟩ : ∃ M', matchedIds (mkDoc f) rule = m :: M' := by
    cases hl : matchedIds (mkDoc f) rule with
    | nil => rw [hl] at hhead; cases hhead
    | cons a t =>
      rw [hl] at hhead
      simp only [List.head?] at hhead
      injection hhead with ham
      exact ⟨t, by rw [ham]⟩
  have hpm : presentB m (mkDoc f) = true :=
    presentB_of_mem_matchedIds (by rw [hM]; exact List.mem_cons_self m M')
  have hpar : parentOf m (mkDoc f) = some 2 := parentOf_mkDoc_top f m hwf htop
  have hbody1 : findBodyChain (applyCleanRule (mkDoc f) rule) = none := by
    have hrule : applyCleanRule (mkDoc f) rule =
        executeAction (mkDoc f) (matchedIds (mkDoc f) rule) rule.action := rfl
    rw [hrule, hM, hact]
    unfold executeAction
    rw [if_neg (by simp), if_neg (by decide), if_neg (by decide), if_neg (by decide),
      if_pos (by decide)]
    rw [List.foldl_cons]
    have hfirst : removeParentAfterStep (mkDoc f) m = headOnly := by
      simp only [removeParentAfterStep, hpm, hpar, if_true]
      rfl
    rw [hfirst]
    obtain ⟨T, hT⟩ :=
      exists_removal_foldl removeParentAfterStep removeParentAfterStep_shape M' headOnly
    rw [hT]
    exact findBodyChain_removeIds_none T headOnly rfl
  unfold cleanHtml
  rw [List.foldl_cons]
  rw [findBodyChain_rules_none rest (applyCleanRule (mkDoc f) rule) hbody1]
  rfl

/-- C9 amended witness: a matched top-level div.x as the first match empties
the whole document. -/
theorem remove_parent_after_first_top_level_empties_witness :
    cleanHtml exTopLevelMatch [ruleParentAfter] = Node.nil :=
  remove_parent_after_first_top_level_empties exTopLevelMatch ruleParentAfter [] 3
    (by constructor <;> decide) rfl (by decide) (by decide)

theorem nextAllSearch_eq_none_iff (m : Nat) (d : Node) :
    nextAllSearch m d = none ↔ presentB m d = false := by
  induction d with
  | nil => simp [nextAllSearch, presentB]
  | text s sib ih => simpa [nextAllSearch, presentB] using ih
  | elem j tg a c sib ihc ihs =>
    by_cases hj : (j == m) = true
    · simp [nextAllSearch, presentB, hj]
    · simp only [nextAllSearch, presentB, hj, Bool.false_eq_true, if_false, Bool.false_or]
      cases hc : nextAllSearch m c with
      | some r =>
        have hpc : presentB m c = true := by
          cases hx : presentB m c with
          | true => rfl
          | false => rw [ihc.mpr hx] at hc; cases hc
        simp [hc, hpc]
      | none =>
        have hpc : presentB m c = false := ihc.mp hc
        simp [hc, ihs, hpc]

theorem nextAllSearch_child (m j : Nat) (tg : String) (a : List (String × String))
    (c sib : Node) (hj : (j == m) = false) (hpc : presentB m c = true) :
    nextAllSearch m (Node.elem j tg a c sib) = nextAllSearch m c := by
  cases hc : nextAllSearch m c with
  | some r => simp [nextAllSearch, hj, hc]
  | none =>
    rw [(nextAllSearch_eq_none_iff m c).mp hc] at hpc
    cases hpc

theorem nextAllSearch_sib (m j : Nat) (tg : String) (a : List (String × String))
    (c sib : Node) (hj : (j == m) = false) (hpc : presentB m c = false) :
    nextAllSearch m (Node.elem j tg a c sib) = nextAllSearch m sib := by
  have hc : nextAllSearch m c = none := (nextAllSearch_eq_none_iff m c).mpr hpc
  simp [nextAllSearch, hj, hc]

theorem mem_sibElems_idsOf {x : Nat} {d : Node} (h : x ∈ sibElems d) : x ∈ idsOf d :=
  (sibElems_sublist_idsOf d).mem h

theorem nextAllIds_subset_idsOf (m : Nat) (d : Node) :
    ∀ x ∈ nextAllIds m d, x ∈ idsOf d := by
  induction d with
  | nil => simp [nextAllIds, nextAllSearch]
  | text s sib ih => simpa [nextAllIds, nextAllSearch, idsOf] using ih
  | elem j tg a c sib ihc ihs =>
    intro x hx
    by_cases hj : (j == m) = true
    · have : nextAllIds m (Node.elem j tg a c sib) = sibElems sib := by
        simp [nextAllIds, nextAllSearch, hj]
      rw [this] at hx
      simp only [idsOf, List.mem_cons, List.mem_append]
      exact Or.inr (Or.inr (mem_sibElems_idsOf hx))
    · simp only [idsOf, List.mem_cons, List.mem_append]
      cases hc : nextAllSearch m c with
      | some r =>
        have he : nextAllIds m (Node.elem j tg a c sib) = nextAllIds m c := by
          simp [nextAllIds, nextAllSearch, hj, hc]
        rw [he] at hx
        exact Or.inr (Or.inl (ihc x hx))
      | none =>
        have he : nextAllIds m (Node.elem j tg a c sib) = nextAllIds m sib := by
          simp [nextAllIds, nextAllSearch, hj, hc]
        rw [he] at hx
        exact Or.inr (Or.inr (ihs x hx))

theorem sibElems_removeIds (S : List Nat) (d : Node) :
    sibElems (removeIds S d) = (sibElems d).filter (fun k => !(S.contains k)) := by
  induction d with
  | nil => rfl
  | text s sib ih => simpa [removeIds, sibElems] using ih
  | elem j tg a c sib ihc ihs =>
    by_cases hj : j ∈ S
    · have h1 : S.contains j = true := (contains_iff_mem S j).mpr hj
      simp only [removeIds, if_pos h1, sibElems, List.filter_cons, h1, Bool.not_true,
        Bool.false_eq_true, if_false]
      exact ihs
    · have h1 : S.contains j = false := by
        cases hx : S.contains j with
        | false => rfl
        | true => exact absurd ((contains_iff_mem S j).mp hx) hj
      have h1' : ¬ (S.contains j = true) := fun hx => hj ((contains_iff_mem S j).mp hx)
      simp only [removeIds, if_neg h1', sibElems, List.filter_cons, h1, Bool.not_false]
      rw [if_pos trivial, ihs]

theorem nextAllSearch_removeIds (S : List Nat) (m : Nat) (d : Node)
    (hnd : (idsOf d).Nodup) (hp : presentB m (removeIds S d) = true) :
    nextAllSearch m (removeIds S d) =
      (nextAllSearch m d).map (List.filter (fun k => !(S.contains k))) := by
  induction d with
  | nil => cases hp
  | text s sib ih =>
    simp only [removeIds, nextAllSearch]
    exact ih (by simpa [idsOf] using hnd) (by simpa [removeIds, presentB] using hp)
  | elem j tg a c sib ihc ihs =>
    obtain ⟨hc, hs, hjc, hjs, hdisj⟩ := nodup_parts hnd
    by_cases hjS : j ∈ S
    · have h1 : S.contains j = true := (contains_iff_mem S j).mpr hjS
      rw [show removeIds S (Node.elem j tg a c sib) = removeIds S sib from by
        simp only [removeIds, if_pos h1]] at hp ⊢
      have hms : m ∈ idsOf sib :=
        (presentB_iff_mem_idsOf m sib).mp (presentB_removeIds_mono S m sib hp)
      have hjm : (j == m) = false := by
        simp only [beq_eq_false_iff_ne, ne_eq]
        rintro rfl
        exact hjs hms
      have hmc : presentB m c = false := by
        cases hx : presentB m c with
        | false => rfl
        | true => exact absurd hms (fun hmm => hdisj m ((presentB_iff_mem_idsOf m c).mp hx) hmm)
      rw [nextAllSearch_sib m j tg a c sib hjm hmc]
      exact ihs hs hp
    · have h1' : ¬ (S.contains j = true) := fun hx => hjS ((contains_iff_mem S j).mp hx)
      rw [show removeIds S (Node.elem j tg a c sib) =
          Node.elem j tg a (removeIds S c) (removeIds S sib) from by
        simp only [removeIds, if_neg h1']] at hp ⊢
      by_cases hjm : (j == m) = true
      · have hl : nextAllSearch m (Node.elem j tg a (removeIds S c) (removeIds S sib)) =
            some (sibElems (removeIds S sib)) := by
          simp [nextAllSearch, hjm]
        have hr : nextAllSearch m (Node.elem j tg a c sib) = some (sibElems sib) := by
          simp [nextAllSearch, hjm]
        rw [hl, hr, sibElems_removeIds]
        rfl
      · have hjm' : (j == m) = false := by
          cases hx : (j == m) with
          | false => rfl
          | true => exact absurd hx hjm
        by_cases hpc : presentB m (removeIds S c) = true
        · have hpc0 : presentB m c = true := presentB_removeIds_mono S m c hpc
          rw [nextAllSearch_child m j tg a (removeIds S c) (removeIds S sib) hjm' hpc,
            nextAllSearch_child m j tg a c sib hjm' hpc0]
          exact ihc hc hpc
        · have hps : presentB m (removeIds S sib) = true := by
            simp only [presentB, Bool.or_eq_true] at hp
            rcases hp with (h | h) | h
            · exact absurd h hjm
            · exact absurd h hpc
            · exact h
          have hms : m ∈ idsOf sib :=
            (presentB_iff_mem_idsOf m sib).mp (presentB_removeIds_mono S m sib hps)
          have hmc0 : presentB m c = false := by
            cases hx : presentB m c with
            | false => rfl
            | true => exact absurd hms (fun hmm => hdisj m ((presentB_iff_mem_idsOf m c).mp hx) hmm)
          have hmc1 : presentB m (removeIds S c) = false := by
            cases hx : presentB m (removeIds S c) with
            | false => rfl
            | true => exact absurd hx hpc
          rw [nextAllSearch_sib m j tg a (removeIds S c) (removeIds S sib) hjm' hmc1,
            nextAllSearch_sib m j tg a c sib hjm' hmc0]
          exact ihs hs hps

theorem nextAllIds_removeIds (S : List Nat) (m : Nat) (d : Node)
    (hnd : (idsOf d).Nodup) (hp : presentB m (removeIds S d) = true) :
    nextAllIds m (removeIds S d) = (nextAllIds m d).filter (fun k => !(S.contains k)) := by
  unfold nextAllIds
  rw [nextAllSearch_removeIds S m d hnd hp]
  cases h : nextAllSearch m d with
  | some l => rfl
  | none =>
    have := (nextAllSearch_eq_none_iff m d).mp h
    rw [presentB_removeIds_mono S m d hp] at this
    cases this

theorem nextAllIds_self_eq (m j : Nat) (tg : String) (a : List (String × String))
    (c sib : Node) (hj : (j == m) = true) :
    nextAllIds m (Node.elem j tg a c sib) = sibElems sib := by
  simp [nextAllIds, nextAllSearch, hj]

theorem nextAllIds_child_eq (m j : Nat) (tg : String) (a : List (String × String))
    (c sib : Node) (hj : (j == m) = false) (hpc : presentB m c = true) :
    nextAllIds m (Node.elem j tg a c sib) = nextAllIds m c := by
  unfold nextAllIds
  rw [nextAllSearch_child m j tg a c sib hj hpc]

theorem nextAllIds_sib_eq (m j : Nat) (tg : String) (a : List (String × String))
    (c sib : Node) (hj : (j == m) = false) (hpc : presentB m c = false) :
    nextAllIds m (Node.elem j tg a c sib) = nextAllIds m sib := by
  unfold nextAllIds
  rw [nextAllSearch_sib m j tg a c sib hj hpc]

theorem presentB_false_of_disjoint {m : Nat} {c sib : Node}
    (hdisj : ∀ x ∈ idsOf c, x ∉ idsOf sib) (hms : m ∈ idsOf sib) :
    presentB m c = false := by
  cases hx : presentB m c with
  | false => rfl
  | true => exact absurd hms (hdisj m ((presentB_iff_mem_idsOf m c).mp hx))

theorem beq_false_of_not_mem {j m : Nat} {l : List Nat} (hj : j ∉ l) (hm : m ∈ l) :
    (j == m) = false := by
  simp only [beq_eq_false_iff_ne, ne_eq]
  rintro rfl
  exact hj hm

theorem nextAll_top_subset_sibElems (b : Nat) (ch : Node)
    (hnd : (idsOf ch).Nodup) (htop : chainHasTop b ch = true) :
    ∀ x ∈ nextAllIds b ch, x ∈ sibElems ch := by
  induction ch with
  | nil => cases htop
  | text s sib ih =>
    intro x hx
    simp only [sibElems]
    exact ih (by simpa [idsOf] using hnd) (by simpa [chainHasTop] using htop) x
      (by simpa [nextAllIds, nextAllSearch] using hx)
  | elem k tg a c tail ihc ihs =>
    obtain ⟨hc, hs, hkc, hks, hdisj⟩ := nodup_parts hnd
    intro x hx
    by_cases hk : (k == b) = true
    · rw [nextAllIds_self_eq b k tg a c tail hk] at hx
      simp only [sibElems, List.mem_cons]
      exact Or.inr hx
    · have hkb : (k == b) = false := by
        cases hy : (k == b) with
        | false => rfl
        | true => exact absurd hy hk
      have htail : chainHasTop b tail = true := by
        simpa [chainHasTop, hkb] using htop
      have hbs : b ∈ idsOf tail :=
        (sibElems_sublist_idsOf tail).mem ((chainHasTop_iff_mem b tail).mp htail)
      have hbc : presentB b c = false := presentB_false_of_disjoint hdisj hbs
      rw [nextAllIds_sib_eq b k tg a c tail hkb hbc] at hx
      simp only [sibElems, List.mem_cons]
      exact Or.inr (ihs hs htail x hx)

theorem ancestorIds_top (b : Nat) (ch : Node)
    (hnd : (idsOf ch).Nodup) (htop : chainHasTop b ch = true) :
    ancestorIds b ch = [] := by
  induction ch with
  | nil => rfl
  | text s sib ih =>
    simp only [ancestorIds]
    exact ih (by simpa [idsOf] using hnd) (by simpa [chainHasTop] using htop)
  | elem k tg a c tail ihc ihs =>
    obtain ⟨hc, hs, hkc, hks, hdisj⟩ := nodup_parts hnd
    by_cases hk : (k == b) = true
    · simp [ancestorIds, hk]
    · have hkb : (k == b) = false := by
        cases hy : (k == b) with
        | false => rfl
        | true => exact absurd hy hk
      have htail : chainHasTop b tail = true := by
        simpa [chainHasTop, hkb] using htop
      have hbs : b ∈ idsOf tail :=
        (sibElems_sublist_idsOf tail).mem ((chainHasTop_iff_mem b tail).mp htail)
      have hbc : presentB b c = false := presentB_false_of_disjoint hdisj hbs
      simp only [ancestorIds, hkb, Bool.false_eq_true, if_false, hbc]
      exact ihs hs htail

theorem nextAllIds_trans (d : Node) (hnd : (idsOf d).Nodup) (m b : Nat)
    (hb : b ∈ nextAllIds m d) : ∀ x ∈ nextAllIds b d, x ∈ nextAllIds m d := by
  induction d with
  | nil => simp [nextAllIds, nextAllSearch] at hb
  | text s sib ih =>
    intro x hx
    simp only [nextAllIds, nextAllSearch] at hb hx ⊢
    exact ih (by simpa [idsOf] using hnd) hb x hx
  | elem j tg a c sib ihc ihs =>
    obtain ⟨hc, hs, hjc, hjs, hdisj⟩ := nodup_parts hnd
    intro x hx
    by_cases hj : (j == m) = true
    · rw [nextAllIds_self_eq m j tg a c sib hj] at hb ⊢
      have htop : chainHasTop b sib = true := (chainHasTop_iff_mem b sib).mpr hb
      have hbs : b ∈ idsOf sib := (sibElems_sublist_idsOf sib).mem hb
      have hjb : (j == b) = false := beq_false_of_not_mem hjs hbs
      have hbc : presentB b c = false := presentB_false_of_disjoint hdisj hbs
      rw [nextAllIds_sib_eq b j tg a c sib hjb hbc] at hx
      exact nextAll_top_subset_sibElems b sib hs htop x hx
    · have hjm : (j == m) = false := by
        cases hy : (j == m) with
        | false => rfl
        | true => exact absurd hy hj
      by_cases hpc : presentB m c = true
      · rw [nextAllIds_child_eq m j tg a c sib hjm hpc] at hb ⊢
        have hbc : b ∈ idsOf c := nextAllIds_subset_idsOf m c b hb
        have hjb : (j == b) = false := beq_false_of_not_mem hjc hbc
        have hpbc : presentB b c = true := (presentB_iff_mem_idsOf b c).mpr hbc
        rw [nextAllIds_child_eq b j tg a c sib hjb hpbc] at hx
        exact ihc hc hb x hx
      · have hpc' : presentB m c = false := by
          cases hy : presentB m c with
          | false => rfl
          | true => exact absurd hy hpc
        rw [nextAllIds_sib_eq m j tg a c sib hjm hpc'] at hb ⊢
        have hbs : b ∈ idsOf sib := nextAllIds_subset_idsOf m sib b hb
        have hjb : (j == b) = false := beq_false_of_not_mem hjs hbs
        have hbc : presentB b c = false := presentB_false_of_disjoint hdisj hbs
        rw [nextAllIds_sib_eq b j tg a c sib hjb hbc] at hx
        exact ihs hs hb x hx

theorem ancestorIds_sibling (d : Node) (hnd : (idsOf d).Nodup) (m b : Nat)
    (hb : b ∈ nextAllIds m d) : ancestorIds b d = ancestorIds m d := by
  induction d with
  | nil => simp [nextAllIds, nextAllSearch] at hb
  | text s sib ih =>
    simp only [ancestorIds]
    exact ih (by simpa [idsOf] using hnd) (by simpa [nextAllIds, nextAllSearch] using hb)
  | elem j tg a c sib ihc ihs =>
    obtain ⟨hc, hs, hjc, hjs, hdisj⟩ := nodup_parts hnd
    by_cases hj : (j == m) = true
    · rw [nextAllIds_self_eq m j tg a c sib hj] at hb
      have htop : chainHasTop b sib = true := (chainHasTop_iff_mem b sib).mpr hb
      have hbs : b ∈ idsOf sib := (sibElems_sublist_idsOf sib).mem hb
      have hjb : (j == b) = false := beq_false_of_not_mem hjs hbs
      have hbc : presentB b c = false := presentB_false_of_disjoint hdisj hbs
      rw [show ancestorIds m (Node.elem j tg a c sib) = [] from by simp [ancestorIds, hj]]
      simp only [ancestorIds, hjb, Bool.false_eq_true, if_false, hbc]
      exact ancestorIds_top b sib hs htop
    · have hjm : (j == m) = false := by
        cases hy : (j == m) with
        | false => rfl
        | true => exact absurd hy hj
      by_cases hpc : presentB m c = true
      · rw [nextAllIds_child_eq m j tg a c sib hjm hpc] at hb
        have hbc : b ∈ idsOf c := nextAllIds_subset_idsOf m c b hb
        have hjb : (j == b) = false := beq_false_of_not_mem hjc hbc
        have hpbc : presentB b c = true := (presentB_iff_mem_idsOf b c).mpr hbc
        simp only [ancestorIds, hjm, hjb, Bool.false_eq_true, if_false, hpc, hpbc, if_true]
        rw [ihc hc hb]
      · have hpc' : presentB m c = false := by
          cases hy : presentB m c with
          | false => rfl
          | true => exact absurd hy hpc
        rw [nextAllIds_sib_eq m j tg a c sib hjm hpc'] at hb
        have hbs : b ∈ idsOf sib := nextAllIds_subset_idsOf m sib b hb
        have hjb : (j == b) = false := beq_false_of_not_mem hjs hbs
        have hbc : presentB b c = false := presentB_false_of_disjoint hdisj hbs
        simp only [ancestorIds, hjm, hjb, Bool.false_eq_true, if_false, hpc', hbc]
        exact ihs hs hb

theorem removeAfterFold_invariant (d : Node) (hnd : (idsOf d).Nodup) :
    ∀ (rest processed T : List Nat),
      (processed ++ rest).Nodup →
      (∀ x ∈ processed ++ rest, x ∈ idsOf d) →
      (∀ x ∈ T, ∃ m ∈ processed, x ∈ m :: nextAllIds m d) →
      (∀ m ∈ processed, presentB m (removeIds T d) = false ∧
        ∀ s ∈ nextAllIds m d, presentB s (removeIds T d) = false) →
      ∃ T', rest.foldl removeAfterStep (removeIds T d) = removeIds T' d ∧
        (∀ x ∈ T', ∃ m ∈ processed ++ rest, x ∈ m :: nextAllIds m d) ∧
        (∀ m ∈ processed ++ rest, presentB m (removeIds T' d) = false ∧
          ∀ s ∈ nextAllIds m d, presentB s (removeIds T' d) = false) := by
  intro rest
  induction rest with
  | nil =>
    intro processed T hnodup hmem hcov hinv
    refine ⟨T, rfl, ?_, ?_⟩
    · simpa using hcov
    · simpa using hinv
  | cons m rest ih =>
    intro processed T hnodup hmem hcov hinv
    rw [List.foldl_cons]
    have hassoc : (processed ++ [m]) ++ rest = processed ++ m :: rest := by
      simp
    by_cases hp : presentB m (removeIds T d) = true
    · have hstep : removeAfterStep (removeIds T d) m =
          removeIds ((T ++ nextAllIds m (removeIds T d)) ++ [m]) d := by
        unfold removeAfterStep
        rw [if_pos hp, removeIds_removeIds, removeIds_removeIds, List.append_assoc]
      have hfilter : nextAllIds m (removeIds T d) =
          (nextAllIds m d).filter (fun k => !(T.contains k)) :=
        nextAllIds_removeIds T m d hnd hp
      have hT1 : (T ++ nextAllIds m (removeIds T d)) ++ [m] =
          T ++ (nextAllIds m (removeIds T d) ++ [m]) := by
        simp
      have hcov1 : ∀ x ∈ (T ++ nextAllIds m (removeIds T d)) ++ [m],
          ∃ m' ∈ processed ++ [m], x ∈ m' :: nextAllIds m' d := by
        intro x hx
        simp only [List.mem_append, List.mem_singleton] at hx
        rcases hx with (hx | hx) | hx
        · obtain ⟨m', hm'p, hm'x⟩ := hcov x hx
          exact ⟨m', List.mem_append_left _ hm'p, hm'x⟩
        · rw [hfilter] at hx
          refine ⟨m, List.mem_append_right _ (List.mem_singleton_self m), ?_⟩
          exact List.mem_cons_of_mem m (List.mem_of_mem_filter hx)
        · subst hx
          exact ⟨x, List.mem_append_right _ (List.mem_singleton_self x),
            List.mem_cons_self x _⟩
      have hD1 : removeIds ((T ++ nextAllIds m (removeIds T d)) ++ [m]) d =
          removeIds (nextAllIds m (removeIds T d) ++ [m]) (removeIds T d) := by
        rw [removeIds_removeIds, hT1]
      have hinv1 : ∀ m' ∈ processed ++ [m],
          presentB m' (removeIds ((T ++ nextAllIds m (removeIds T d)) ++ [m]) d) = false ∧
          ∀ s ∈ nextAllIds m' d,
            presentB s (removeIds ((T ++ nextAllIds m (removeIds T d)) ++ [m]) d) = false := by
        intro m' hm'
        simp only [List.mem_append, List.mem_singleton] at hm'
        rcases hm' with hm' | hm'
        · obtain ⟨habs, hsibs⟩ := hinv m' hm'
          constructor
          · rw [hD1]
            exact presentB_removeIds_of_absent _ _ _ habs
          · intro s hs
            rw [hD1]
            exact presentB_removeIds_of_absent _ _ _ (hsibs s hs)
        · subst hm'
          constructor
          · apply presentB_removeIds_self
            simp
          · intro s hs
            by_cases hps : presentB s (removeIds T d) = true
            · have hsT : s ∉ T := by
                intro hsT
                rw [presentB_removeIds_self T s d hsT] at hps
                cases hps
              have hsf : s ∈ (nextAllIds m' d).filter (fun k => !(T.contains k)) := by
                rw [List.mem_filter]
                refine ⟨hs, ?_⟩
                have : T.contains s = false := by
                  cases hy : T.contains s with
                  | false => rfl
                  | true => exact absurd ((contains_iff_mem T s).mp hy) hsT
                rw [this]
                rfl
              rw [hD1]
              apply presentB_removeIds_self
              rw [← hfilter] at hsf
              exact List.mem_append_left _ hsf
            · have hps' : presentB s (removeIds T d) = false := by
                cases hy : presentB s (removeIds T d) with
                | false => rfl
                | true => exact absurd hy hps
              rw [hD1]
              exact presentB_removeIds_of_absent _ _ _ hps'
      obtain ⟨T', hT', hcov', hinv'⟩ :=
        ih (processed ++ [m]) ((T ++ nextAllIds m (removeIds T d)) ++ [m])
          (by rw [hassoc]; exact hnodup)
          (by rw [hassoc]; exact hmem)
          hcov1 hinv1
      refine ⟨T', ?_, ?_, ?_⟩
      · rw [hstep]
        exact hT'
      · intro x hx
        obtain ⟨m', hm'p, hm'x⟩ := hcov' x hx
        rw [hassoc] at hm'p
        exact ⟨m', hm'p, hm'x⟩
      · intro m' hm'
        apply hinv'
        rw [hassoc]
        exact hm'
    · have hp' : presentB m (removeIds T d) = false := by
        cases hx : presentB m (removeIds T d) with
        | false => rfl
        | true => exact absurd hx hp
      have hstep : removeAfterStep (removeIds T d) m = removeIds T d := by
        unfold removeAfterStep
        rw [if_neg hp]
      have hmd : presentB m d = true :=
        (presentB_iff_mem_idsOf m d).mpr (hmem m (by simp))
      have hmp : m ∉ processed := by
        intro hmpr
        have hdis := List.disjoint_of_nodup_append hnodup
        exact hdis hmpr (List.mem_cons_self m rest)
      have hnewinv : presentB m (removeIds T d) = false ∧
          ∀ s ∈ nextAllIds m d, presentB s (removeIds T d) = false := by
        refine ⟨hp', ?_⟩
        intro s hs
        rcases presentB_removeIds_reason T m d hmd hp' with hmT | ⟨b, hbanc, hbT⟩
        · obtain ⟨m', hm'p, hm'x⟩ := hcov m hmT
          have hmm' : m ∈ nextAllIds m' d := by
            rcases List.mem_cons.mp hm'x with he | hm2
            · subst he
              exact absurd hm'p hmp
            · exact hm2
          exact (hinv m' hm'p).2 s (nextAllIds_trans d hnd m' m hmm' s hs)
        · have hanc : ancestorIds s d = ancestorIds m d := ancestorIds_sibling d hnd m s hs
          exact presentB_removeIds_ancestor T s b d hnd (by rw [hanc]; exact hbanc) hbT
      obtain ⟨T', hT', hcov', hinv'⟩ := ih (processed ++ [m]) T
        (by rw [hassoc]; exact hnodup)
        (by rw [hassoc]; exact hmem)
        (fun x hx => by
          obtain ⟨m', hm'p, hm'x⟩ := hcov x hx
          exact ⟨m', List.mem_append_left _ hm'p, hm'x⟩)
        (fun m' hm' => by
          simp only [List.mem_append, List.mem_singleton] at hm'
          rcases hm' with hm' | hm'
          · exact hinv m' hm'
          · subst hm'
            exact hnewinv)
      refine ⟨T', ?_, ?_, ?_⟩
      · rw [hstep]
        exact hT'
      · intro x hx
        obtain ⟨m', hm'p, hm'x⟩ := hcov' x hx
        rw [hassoc] at hm'p
        exact ⟨m', hm'p, hm'x⟩
      · intro m' hm'
        apply hinv'
        rw [hassoc]
        exact hm'

/-- C3: executing remove-after removes every matched node and all of its
following element siblings (snapshot order, each match processed fully, the
presentB guard making detached matches no-ops); every node that is neither a
matched node nor a following sibling of one, and none of whose ancestors
are, survives -- in particular the nodes preceding a matched node under the
same parent.  On the spec example the output div is empty. -/
theorem remove_after_semantics (d : Node) (rule : CleanRule)
    (hnd : (idsOf d).Nodup) (hact : rule.action = "remove-after") :
    (∀ m ∈ matchedIds d rule,
      presentB m (applyCleanRule d rule) = false ∧
      ∀ s ∈ nextAllIds m d, presentB s (applyCleanRule d rule) = false) ∧
    (∀ i, presentB i d = true →
      (∀ m ∈ matchedIds d rule, i ∉ m :: nextAllIds m d) →
      (∀ b ∈ ancestorIds i d, ∀ m ∈ matchedIds d rule, b ∉ m :: nextAllIds m d) →
      presentB i (applyCleanRule d rule) = true) ∧
    cleanHtml exRemoveAfter [ruleRemoveAfter] = Node.elem 3 "div" [] Node.nil Node.nil := by
  have hrule : applyCleanRule d rule = executeAction d (matchedIds d rule) rule.action := rfl
  cases hM : matchedIds d rule with
  | nil =>
    have hid : applyCleanRule d rule = d := by
      rw [hrule, hM]
      unfold executeAction
      simp
    refine ⟨?_, ?_, by decide⟩
    · intro m hm
      cases hm
    · intro i hpi _ _
      rw [hid]
      exact hpi
  | cons m0 M0 =>
    have hexec : applyCleanRule d rule = (m0 :: M0).foldl removeAfterStep d := by
      rw [hrule, hM, hact]
      unfold executeAction
      rw [if_neg (by simp), if_neg (by decide), if_neg (by decide), if_pos (by decide)]
    have hMnodup : (m0 :: M0).Nodup := by
      rw [← hM]
      exact hnd.sublist (matchedIds_sublist d rule)
    have hMmem : ∀ x ∈ m0 :: M0, x ∈ idsOf d := by
      rw [← hM]
      exact fun x hx => (matchedIds_sublist d rule).mem hx
    obtain ⟨T', hT', hcov', hinv'⟩ := removeAfterFold_invariant d hnd (m0 :: M0) [] []
      (by simpa using hMnodup) (by simpa using hMmem) (by simp) (by simp)
    rw [removeIds_empty] at hT'
    refine ⟨?_, ?_, by decide⟩
    · intro m hm
      rw [hexec, hT']
      exact hinv' m (by simpa using hm)
    · intro i hpi hno hnoanc
      rw [hexec, hT']
      apply presentB_removeIds_survives T' i d hpi
      · intro hiT'
        obtain ⟨m', hm'p, hm'x⟩ := hcov' i hiT'
        exact hno m' (by simpa using hm'p) hm'x
      · intro b hb hbT'
        obtain ⟨m', hm'p, hm'x⟩ := hcov' b hbT'
        exact hnoanc b hb m' (by simpa using hm'p) hm'x

/-- C3 witness: on the loaded spec example, the matched marker s.m (id 4) and
its following siblings p (5) and p (6) are gone, while the enclosing div (3),
which precedes no match and is no match's sibling, survives. -/
theorem remove_after_semantics_witness :
    presentB 4 (applyCleanRule (mkDoc exRemoveAfter) ruleRemoveAfter) = false ∧
    presentB 5 (applyCleanRule (mkDoc exRemoveAfter) ruleRemoveAfter) = false ∧
    presentB 6 (applyCleanRule (mkDoc exRemoveAfter) ruleRemoveAfter) = false ∧
    presentB 3 (applyCleanRule (mkDoc exRemoveAfter) ruleRemoveAfter) = true := by
  have h := remove_after_semantics (mkDoc exRemoveAfter) ruleRemoveAfter (by decide) rfl
  exact ⟨(h.1 4 (by decide)).1, (h.1 4 (by decide)).2 5 (by decide),
    (h.1 4 (by decide)).2 6 (by decide), h.2.1 3 (by decide) (by decide) (by decide)⟩

theorem removeIds_membership_congr (S T : List Nat) (d : Node)
    (h : ∀ i, i ∈ S ↔ i ∈ T) : removeIds S d = removeIds T d := by
  induction d with
  | nil => rfl
  | text s sib ih => simp [removeIds, ih]
  | elem j tg a c sib ihc ihs =>
    by_cases hj : j ∈ S
    · have hjT : j ∈ T := (h j).mp hj
      have h1 : S.contains j = true := (contains_iff_mem S j).mpr hj
      have h2 : T.contains j = true := (contains_iff_mem T j).mpr hjT
      simp only [removeIds, if_pos h1, if_pos h2]
      exact ihs
    · have hjT : j ∉ T := fun hx => hj ((h j).mpr hx)
      have h1 : ¬ (S.contains j = true) := fun hx => hj ((contains_iff_mem S j).mp hx)
      have h2 : ¬ (T.contains j = true) := fun hx => hjT ((contains_iff_mem T j).mp hx)
      simp only [removeIds, if_neg h1, if_neg h2]
      rw [ihc, ihs]

theorem removeIds_absent_cons (S T : List Nat) (x : Nat) (d : Node)
    (h : presentB x (removeIds S d) = false) :
    removeIds (S ++ x :: T) d = removeIds (S ++ T) d := by
  induction d with
  | nil => rfl
  | text s sib ih => simp [removeIds, ih (by simpa [removeIds, presentB] using h)]
  | elem j tg a c sib ihc ihs =>
    by_cases hj : j ∈ S
    · have h1 : S.contains j = true := (contains_iff_mem S j).mpr hj
      have h2 : (S ++ x :: T).contains j = true := by
        rw [contains_iff_mem]
        exact List.mem_append_left _ hj
      have h3 : (S ++ T).contains j = true := by
        rw [contains_iff_mem]
        exact List.mem_append_left _ hj
      have hsib : presentB x (removeIds S sib) = false := by
        rw [show removeIds S (Node.elem j tg a c sib) = removeIds S sib from by
          simp only [removeIds, if_pos h1]] at h
        exact h
      simp only [removeIds, if_pos h2, if_pos h3]
      exact ihs hsib
    · have h1 : ¬ (S.contains j = true) := fun hx => hj ((contains_iff_mem S j).mp hx)
      rw [show removeIds S (Node.elem j tg a c sib) =
          Node.elem j tg a (removeIds S c) (removeIds S sib) from by
        simp only [removeIds, if_neg h1]] at h
      simp only [presentB, Bool.or_eq_false_iff] at h
      obtain ⟨⟨hjx, hc⟩, hs⟩ := h
      have hxj : x ≠ j := by
        intro he
        subst he
        simp at hjx
      by_cases hjT : j ∈ T
      · have h2 : (S ++ x :: T).contains j = true := by
          rw [contains_iff_mem]
          exact List.mem_append_right _ (List.mem_cons_of_mem x hjT)
        have h3 : (S ++ T).contains j = true := by
          rw [contains_iff_mem]
          exact List.mem_append_right _ hjT
        simp only [removeIds, if_pos h2, if_pos h3]
        exact ihs hs
      · have h2 : ¬ ((S ++ x :: T).contains j = true) := by
          intro hx2
          rw [contains_iff_mem] at hx2
          rcases List.mem_append.mp hx2 with hm | hm
          · exact hj hm
          · rcases List.mem_cons.mp hm with hm | hm
            · exact hxj hm.symm
            · exact hjT hm
        have h3 : ¬ ((S ++ T).contains j = true) := by
          intro hx3
          rw [contains_iff_mem] at hx3
          rcases List.mem_append.mp hx3 with hm | hm
          · exact hj hm
          · exact hjT hm
        simp only [removeIds, if_neg h2, if_neg h3]
        rw [ihc hc, ihs hs]

theorem removeIds_absent_list (S T X : List Nat) (d : Node)
    (h : ∀ x ∈ X, presentB x (removeIds S d) = false) :
    removeIds (S ++ (X ++ T)) d = removeIds (S ++ T) d := by
  induction X with
  | nil => rfl
  | cons x X ih =>
    have h1 : removeIds (S ++ (x :: (X ++ T))) d = removeIds (S ++ (X ++ T)) d :=
      removeIds_absent_cons S (X ++ T) x d (h x (List.mem_cons_self x X))
    rw [show S ++ (x :: X ++ T) = S ++ (x :: (X ++ T)) from by simp, h1]
    exact ih (fun y hy => h y (List.mem_cons_of_mem x hy))

theorem findElem_removeIds (S : List Nat) (i : Nat) (d : Node)
    (hnd : (idsOf d).Nodup) (hp : presentB i (removeIds S d) = true) :
    ∃ t a c c', findElem i d = some (t, a, c) ∧
      findElem i (removeIds S d) = some (t, a, c') := by
  induction d with
  | nil => cases hp
  | text s sib ih =>
    simp only [removeIds, findElem]
    exact ih (by simpa [idsOf] using hnd) (by simpa [removeIds, presentB] using hp)
  | elem j tg a c sib ihc ihs =>
    obtain ⟨hc, hs, hjc, hjs, hdisj⟩ := nodup_parts hnd
    by_cases hjS : j ∈ S
    · have h1 : S.contains j = true := (contains_iff_mem S j).mpr hjS
      rw [show removeIds S (Node.elem j tg a c sib) = removeIds S sib from by
        simp only [removeIds, if_pos h1]] at hp ⊢
      have hms : i ∈ idsOf sib :=
        (presentB_iff_mem_idsOf i sib).mp (presentB_removeIds_mono S i sib hp)
      have hji : (j == i) = false := beq_false_of_not_mem hjs hms
      have hmc : presentB i c = false := presentB_false_of_disjoint hdisj hms
      obtain ⟨t, a1, c1, c1', hf1, hf2⟩ := ihs hs hp
      refine ⟨t, a1, c1, c1', ?_, hf2⟩
      simp only [findElem, hji, Bool.false_eq_true, if_false,
        (findElem_eq_none_iff i c).mpr hmc]
      exact hf1
    · have h1' : ¬ (S.contains j = true) := fun hx => hjS ((contains_iff_mem S j).mp hx)
      rw [show removeIds S (Node.elem j tg a c sib) =
          Node.elem j tg a (removeIds S c) (removeIds S sib) from by
        simp only [removeIds, if_neg h1']] at hp ⊢
      by_cases hji : (j == i) = true
      · refine ⟨tg, a, c, removeIds S c, ?_, ?_⟩
        · simp [findElem, hji]
        · simp [findElem, hji]
      · have hji' : (j == i) = false := by
          cases hx : (j == i) with
          | false => rfl
          | true => exact absurd hx hji
        by_cases hpc : presentB i (removeIds S c) = true
        · obtain ⟨t, a1, c1, c1', hf1, hf2⟩ := ihc hc hpc
          refine ⟨t, a1, c1, c1', ?_, ?_⟩
          · simp only [findElem, hji', Bool.false_eq_true, if_false, hf1]
          · simp only [findElem, hji', Bool.false_eq_true, if_false, hf2]
        · have hps : presentB i (removeIds S sib) = true := by
            simp only [presentB, Bool.or_eq_true] at hp
            rcases hp with (h | h) | h
            · exact absurd h hji
            · exact absurd h hpc
            · exact h
          have hms : i ∈ idsOf sib :=
            (presentB_iff_mem_idsOf i sib).mp (presentB_removeIds_mono S i sib hps)
          have hmc0 : presentB i c = false := presentB_false_of_disjoint hdisj hms
          have hmc1 : presentB i (removeIds S c) = false :=
            presentB_removeIds_of_absent S i c hmc0
          obtain ⟨t, a1, c1, c1', hf1, hf2⟩ := ihs hs hps
          refine ⟨t, a1, c1, c1', ?_, ?_⟩
          · simp only [findElem, hji', Bool.false_eq_true, if_false,
              (findElem_eq_none_iff i c).mpr hmc0]
            exact hf1
          · simp only [findElem, hji', Bool.false_eq_true, if_false,
              (findElem_eq_none_iff i (removeIds S c)).mpr hmc1]
            exact hf2

theorem mem_collectP_removeIds (S : List Nat) (d : Node)
    (hnd : (idsOf d).Nodup)
    (p : String → List (String × String) → Node → Bool)
    (hloc : ∀ t a c c', p t a c = p t a c') (i : Nat) :
    i ∈ collectP p (removeIds S d) ↔
      presentB i (removeIds S d) = true ∧ i ∈ collectP p d := by
  have hnd' : (idsOf (removeIds S d)).Nodup := nodup_removeIds S d hnd
  rw [mem_collectP_iff p i (removeIds S d) hnd', mem_collectP_iff p i d hnd]
  constructor
  · rintro ⟨t, a, c, hf, hq⟩
    have hp : presentB i (removeIds S d) = true := by
      cases hx : presentB i (removeIds S d) with
      | true => rfl
      | false => rw [(findElem_eq_none_iff i _).mpr hx] at hf; cases hf
    obtain ⟨t0, a0, c0, c0', hf1, hf2⟩ := findElem_removeIds S i d hnd hp
    rw [hf] at hf2
    injection hf2 with hf2
    injection hf2 with he1 hf2
    injection hf2 with he2 he3
    refine ⟨hp, t0, a0, c0, hf1, ?_⟩
    rw [he1, he2] at hq
    rw [hloc t0 a0 c0 c]
    exact hq
  · rintro ⟨hp, t, a, c, hf, hq⟩
    obtain ⟨t0, a0, c0, c0', hf1, hf2⟩ := findElem_removeIds S i d hnd hp
    rw [hf] at hf1
    injection hf1 with hf1
    injection hf1 with he1 hf1
    injection hf1 with he2 he3
    refine ⟨t0, a0, c0', hf2, ?_⟩
    rw [he1, he2] at hq
    rw [hloc t0 a0 c0' c]
    exact hq

theorem predPasses_removeIds (preds : List (String → List (String × String) → Node → Bool))
    (d : Node) (hnd : (idsOf d).Nodup)
    (hloc : ∀ q ∈ preds, ∀ t a c c', q t a c = q t a c') :
    ∀ S : List Nat, predPasses preds (removeIds S d) =
      removeIds (S ++ preds.flatMap (fun q => collectP q d)) d := by
  induction preds with
  | nil =>
    intro S
    simp [predPasses]
  | cons q qs ih =>
    intro S
    have hlq : ∀ t a c c', q t a c = q t a c' := hloc q (List.mem_cons_self q qs)
    have hlqs : ∀ p ∈ qs, ∀ t a c c', p t a c = p t a c' :=
      fun p hp => hloc p (List.mem_cons_of_mem q hp)
    have h1 : predPasses (q :: qs) (removeIds S d) =
        predPasses qs (removeIds (S ++ collectP q (removeIds S d)) d) := by
      unfold predPasses
      rw [List.foldl_cons, removeIds_removeIds]
    rw [h1, ih hlqs (S ++ collectP q (removeIds S d))]
    have hsub : ∀ x ∈ collectP q (removeIds S d), x ∈ collectP q d := by
      intro x hx
      exact ((mem_collectP_removeIds S d hnd q hlq x).mp hx).2
    have habs : ∀ x ∈ (collectP q d).filter
        (fun x => !((collectP q (removeIds S d)).contains x)),
        presentB x (removeIds S d) = false := by
      intro x hx
      rw [List.mem_filter] at hx
      obtain ⟨hxC, hxn⟩ := hx
      cases hp : presentB x (removeIds S d) with
      | false => rfl
      | true =>
        have : x ∈ collectP q (removeIds S d) :=
          (mem_collectP_removeIds S d hnd q hlq x).mpr ⟨hp, hxC⟩
        rw [(contains_iff_mem _ x).mpr this] at hxn
        cases hxn
    have hmem : ∀ i, i ∈ S ++ (q :: qs).flatMap (fun p => collectP p d) ↔
        i ∈ S ++ ((collectP q d).filter
          (fun x => !((collectP q (removeIds S d)).contains x)) ++
          (collectP q (removeIds S d) ++ qs.flatMap (fun p => collectP p d))) := by
      intro i
      simp only [List.mem_append, List.flatMap_cons, List.mem_filter, Bool.not_eq_true,
        List.mem_cons]
      constructor
      · rintro (h | h | h)
        · exact Or.inl h
        · by_cases hC' : i ∈ collectP q (removeIds S d)
          · exact Or.inr (Or.inr (Or.inl hC'))
          · refine Or.inr (Or.inl ⟨h, ?_⟩)
            cases hy : (collectP q (removeIds S d)).contains i with
            | false => rfl
            | true => exact absurd ((contains_iff_mem _ i).mp hy) hC'
        · exact Or.inr (Or.inr (Or.inr h))
      · rintro (h | h | h | h)
        · exact Or.inl h
        · exact Or.inr (Or.inl h.1)
        · exact Or.inr (Or.inl (hsub i h))
        · exact Or.inr (Or.inr h)
    rw [removeIds_membership_congr _ _ d hmem,
      removeIds_absent_list S _ _ d habs]
    apply removeIds_membership_congr
    intro i
    simp [List.mem_append, or_assoc]

theorem sselMatches_local (s : SSel) (hs : sselLocal s = true)
    (t : String) (a : List (String × String)) (c c' : Node) :
    sselMatches s t a c = sselMatches s t a c' := by
  cases s <;> simp_all [sselMatches, sselLocal]

theorem compoundMatches_local (comp : List SSel) (hs : comp.all sselLocal = true)
    (t : String) (a : List (String × String)) (c c' : Node) :
    compoundMatches comp t a c = compoundMatches comp t a c' := by
  induction comp with
  | nil => rfl
  | cons s comp ih =>
    rw [List.all_cons, Bool.and_eq_true] at hs
    simp only [compoundMatches, List.all_cons]
    rw [sselMatches_local s hs.1 t a c c']
    have := ih hs.2
    simp only [compoundMatches] at this
    rw [this]

theorem selMatches_local (sel : Selector) (hs : selLocal sel = true)
    (t : String) (a : List (String × String)) (c c' : Node) :
    selMatches sel t a c = selMatches sel t a c' := by
  induction sel with
  | nil => rfl
  | cons comp sel ih =>
    rw [selLocal, List.all_cons, Bool.and_eq_true] at hs
    simp only [selMatches, List.any_cons]
    rw [compoundMatches_local comp hs.1 t a c c']
    have := ih hs.2
    simp only [selMatches, selLocal, hs.2] at this
    rw [this]

theorem passPreds_local (p : PassId) (hp : p ≠ PassId.empties) :
    ∀ q ∈ passPreds p, ∀ t a c c', q t a c = q t a c' := by
  cases p with
  | empties => exact absurd rfl hp
  | pixels =>
    intro q hq t a c c'
    simp only [passPreds, List.mem_singleton] at hq
    subst hq
    unfold pixelPred
    rw [selMatches_local [[SSel.tag "img"]] (by decide) t a c c']
  | hidden =>
    intro q hq t a c c'
    simp only [passPreds, List.mem_cons, List.mem_singleton, List.not_mem_nil, or_false] at hq
    rcases hq with rfl | rfl | rfl | rfl
    · exact selMatches_local _ (by decide) t a c c'
    · exact selMatches_local _ (by decide) t a c c'
    · exact selMatches_local _ (by decide) t a c c'
    · exact selMatches_local _ (by decide) t a c c'
  | tags =>
    intro q hq t a c c'
    simp only [passPreds, List.mem_singleton] at hq
    subst hq
    exact selMatches_local _ (by decide) t a c c'
  | widgets =>
    intro q hq t a c c'
    simp only [passPreds, List.mem_singleton] at hq
    subst hq
    exact selMatches_local _ (by decide) t a c c'

theorem passPixels_eq_predPasses (d : Node) (hnd : (idsOf d).Nodup) :
    passPixels d = predPasses (passPreds PassId.pixels) d := by
  unfold passPixels
  have hfil := filter_collectP (selMatches [[SSel.tag "img"]])
    (fun _ a _ => isTrackingPixel a)
    (fun i =>
      match findElem i d with
      | some (_, a, _) => isTrackingPixel a
      | none => false) d hnd
    (by
      intro i t a c h
      simp only [h])
  unfold selectIds
  rw [hfil]
  have h2 : predPasses (passPreds PassId.pixels) d = removeIds (collectP pixelPred d) d := rfl
  rw [h2]
  congr 1

theorem runPass_eq_predPasses (p : PassId) (d : Node) (hnd : (idsOf d).Nodup) :
    runPass p d = predPasses (passPreds p) d := by
  cases p with
  | pixels => exact passPixels_eq_predPasses d hnd
  | hidden => rfl
  | empties => rfl
  | tags => rfl
  | widgets => rfl

theorem predPasses_append (l1 l2 : List (String → List (String × String) → Node → Bool))
    (d : Node) : predPasses (l1 ++ l2) d = predPasses l2 (predPasses l1 d) := by
  unfold predPasses
  rw [List.foldl_append]

theorem predPasses_normal (preds : List (String → List (String × String) → Node → Bool))
    (d : Node) (hnd : (idsOf d).Nodup)
    (hloc : ∀ q ∈ preds, ∀ t a c c', q t a c = q t a c') :
    predPasses preds d = removeIds (preds.flatMap (fun q => collectP q d)) d := by
  have h := predPasses_removeIds preds d hnd hloc []
  rw [removeIds_empty] at h
  rw [h]
  rfl

theorem foldl_runPass_eq (ps : List PassId) (d : Node) (hnd : (idsOf d).Nodup)
    (hps : ∀ p ∈ ps, p ≠ PassId.empties) :
    ps.foldl (fun dd p => runPass p dd) d = predPasses (ps.flatMap passPreds) d := by
  induction ps generalizing d with
  | nil => rfl
  | cons p ps ih =>
    rw [List.foldl_cons, List.flatMap_cons, predPasses_append]
    have h1 : runPass p d = predPasses (passPreds p) d := runPass_eq_predPasses p d hnd
    have hnd' : (idsOf (predPasses (passPreds p) d)).Nodup := by
      rw [predPasses_normal (passPreds p) d hnd
        (passPreds_local p (hps p (List.mem_cons_self p ps)))]
      exact nodup_removeIds _ d hnd
    rw [show (fun dd p => runPass p dd) = (fun dd p => runPass p dd) from rfl]
    have h2 := ih (predPasses (passPreds p) d) hnd'
      (fun q hq => hps q (List.mem_cons_of_mem p hq))
    rw [← h1] at h2
    have h3 : List.foldl (fun dd p => runPass p dd) (runPass p d) ps =
        predPasses (ps.flatMap passPreds) (runPass p d) := h2
    rw [h3, h1]

/-- C6 amended: the four attribute/tag-driven passes of the junk cleaner
(tracking pixels, hidden elements, iframe/script/style tags, widget classes)
are mutually order-independent: any permutation of them produces the output
of the declared order.  (The empty-container pass is excluded: it is
structure-sensitive and order-dependent, as the counterexample shows.) -/
theorem four_passes_order_independent (f : Node) (ps : List PassId) (hwf : WfChain f)
    (hperm : ps.Perm [PassId.pixels, PassId.hidden, PassId.tags, PassId.widgets]) :
    runPasses ps f =
      runPasses [PassId.pixels, PassId.hidden, PassId.tags, PassId.widgets] f := by
  have hnd := nodup_mkDoc f hwf
  have hne : ∀ p ∈ ps, p ≠ PassId.empties := by
    intro p hp he
    subst he
    have hmem : PassId.empties ∈ [PassId.pixels, PassId.hidden, PassId.tags, PassId.widgets] :=
      hperm.mem_iff.mp hp
    exact absurd hmem (by decide)
  have hne2 : ∀ p ∈ [PassId.pixels, PassId.hidden, PassId.tags, PassId.widgets],
      p ≠ PassId.empties := by decide
  have hloc1 : ∀ q ∈ ps.flatMap passPreds, ∀ t a c c', q t a c = q t a c' := by
    intro q hq
    rw [List.mem_flatMap] at hq
    obtain ⟨p, hp, hqp⟩ := hq
    exact passPreds_local p (hne p hp) q hqp
  have hloc2 : ∀ q ∈ ([PassId.pixels, PassId.hidden, PassId.tags,
      PassId.widgets] : List PassId).flatMap passPreds, ∀ t a c c', q t a c = q t a c' := by
    intro q hq
    rw [List.mem_flatMap] at hq
    obtain ⟨p, hp, hqp⟩ := hq
    exact passPreds_local p (hne2 p hp) q hqp
  unfold runPasses
  rw [foldl_runPass_eq ps (mkDoc f) hnd hne,
    foldl_runPass_eq [PassId.pixels, PassId.hidden, PassId.tags, PassId.widgets]
      (mkDoc f) hnd hne2,
    predPasses_normal _ (mkDoc f) hnd hloc1,
    predPasses_normal _ (mkDoc f) hnd hloc2]
  have hsets : removeIds ((ps.flatMap passPreds).flatMap (fun q => collectP q (mkDoc f)))
      (mkDoc f) =
      removeIds ((([PassId.pixels, PassId.hidden, PassId.tags,
        PassId.widgets] : List PassId).flatMap passPreds).flatMap
        (fun q => collectP q (mkDoc f))) (mkDoc f) := by
    apply removeIds_membership_congr
    intro i
    simp only [List.mem_flatMap]
    constructor
    · rintro ⟨q, hq, hi⟩
      obtain ⟨p, hp, hqp⟩ := hq
      exact ⟨q, ⟨p, hperm.mem_iff.mp hp, hqp⟩, hi⟩
    · rintro ⟨q, hq, hi⟩
      obtain ⟨p, hp, hqp⟩ := hq
      exact ⟨q, ⟨p, hperm.mem_iff.mpr hp, hqp⟩, hi⟩
  rw [hsets]

/-- C6 amended witness: swapping the pixel and hidden passes leaves the
output on a concrete fragment unchanged. -/
theorem four_passes_order_independent_witness :
    runPasses [PassId.hidden, PassId.pixels, PassId.tags, PassId.widgets] exPixelPara =
      runPasses [PassId.pixels, PassId.hidden, PassId.tags, PassId.widgets] exPixelPara :=
  four_passes_order_independent exPixelPara
    [PassId.hidden, PassId.pixels, PassId.tags, PassId.widgets]
    (by constructor <;> decide) (by decide)

theorem entryMatches_local (r : CleanRule) (hr : ruleGood r = true) :
    ∀ t a c c', entryMatches r t a c = entryMatches r t a c' := by
  intro t a c c'
  unfold ruleGood at hr
  rw [Bool.and_eq_true, Bool.and_eq_true] at hr
  obtain ⟨⟨htm, hsel⟩, _⟩ := hr
  have htm' : r.textMatch = none := by
    cases hx : r.textMatch with
    | none => rfl
    | some tm => rw [hx] at htm; cases htm
  unfold entryMatches
  rw [htm', selMatches_local r.selector hsel t a c c']

theorem entryMatches_scaffold (r : CleanRule) (hr : ruleGood r = true) (t : String)
    (ht : t = "html" ∨ t = "head" ∨ t = "body") (c : Node) :
    entryMatches r t [] c = false := by
  have hr2 := hr
  unfold ruleGood at hr2
  rw [Bool.and_eq_true] at hr2
  obtain ⟨_, hsc⟩ := hr2
  rw [List.all_eq_true] at hsc
  have hn : entryMatches r t [] Node.nil = false := by
    rcases ht with rfl | rfl | rfl
    · have := hsc "html" (by decide)
      simpa using this
    · have := hsc "head" (by decide)
      simpa using this
    · have := hsc "body" (by decide)
      simpa using this
  rw [entryMatches_local r hr t [] c Node.nil]
  exact hn

theorem removeIds_mkDoc (S : List Nat) (g : Node)
    (h0 : 0 ∉ S) (h1 : 1 ∉ S) (h2 : 2 ∉ S) :
    removeIds S (mkDoc g) = mkDoc (removeIds S g) := by
  have hc0 : ¬ (S.contains 0 = true) := fun hx => h0 ((contains_iff_mem S 0).mp hx)
  have hc1 : ¬ (S.contains 1 = true) := fun hx => h1 ((contains_iff_mem S 1).mp hx)
  have hc2 : ¬ (S.contains 2 = true) := fun hx => h2 ((contains_iff_mem S 2).mp hx)
  simp [mkDoc, removeIds, h0, h1, h2]

theorem matchedIds_shrink (S : List Nat) (d : Node) (hnd : (idsOf d).Nodup)
    (r : CleanRule) (hr : ruleGood r = true) (i : Nat)
    (h : i ∈ matchedIds (removeIds S d) r) :
    i ∈ matchedIds d r ∧ presentB i (removeIds S d) = true := by
  rw [matchedIds_eq_collect (removeIds S d) r (nodup_removeIds S d hnd)] at h
  rw [matchedIds_eq_collect d r hnd]
  have := (mem_collectP_removeIds S d hnd (entryMatches r) (entryMatches_local r hr) i).mp h
  exact ⟨this.2, this.1⟩

theorem findElem_scaffold_html (g : Node) :
    findElem 0 (mkDoc g) =
      some ("html", [], Node.elem 1 "head" [] Node.nil (Node.elem 2 "body" [] g Node.nil)) := rfl

theorem findElem_scaffold_head (g : Node) :
    findElem 1 (mkDoc g) = some ("head", [], Node.nil) := rfl

theorem findElem_scaffold_body (g : Node) :
    findElem 2 (mkDoc g) = some ("body", [], g) := rfl

theorem matchedIds_mkDoc_mem (g : Node) (hwf : WfChain g) (r : CleanRule)
    (hr : ruleGood r = true) (m : Nat) (hm : m ∈ matchedIds (mkDoc g) r) :
    m ∈ idsOf g ∧ 3 ≤ m := by
  have hnd := nodup_mkDoc g hwf
  rw [mem_matchedIds_iff (mkDoc g) r m hnd] at hm
  obtain ⟨t, a, c, hf, hq⟩ := hm
  have hm0 : m ≠ 0 := by
    rintro rfl
    rw [findElem_scaffold_html g] at hf
    injection hf with hf
    injection hf with he1 hf
    injection hf with he2 he3
    rw [← he1, ← he2] at hq
    rw [entryMatches_scaffold r hr "html" (Or.inl rfl) c] at hq
    cases hq
  have hm1 : m ≠ 1 := by
    rintro rfl
    rw [findElem_scaffold_head g] at hf
    injection hf with hf
    injection hf with he1 hf
    injection hf with he2 he3
    rw [← he1, ← he2] at hq
    rw [entryMatches_scaffold r hr "head" (Or.inr (Or.inl rfl)) c] at hq
    cases hq
  have hm2 : m ≠ 2 := by
    rintro rfl
    rw [findElem_scaffold_body g] at hf
    injection hf with hf
    injection hf with he1 hf
    injection hf with he2 he3
    rw [← he1, ← he2] at hq
    rw [entryMatches_scaffold r hr "body" (Or.inr (Or.inr rfl)) c] at hq
    cases hq
  have hp : presentB m (mkDoc g) = true := by
    cases hx : presentB m (mkDoc g) with
    | true => rfl
    | false => rw [(findElem_eq_none_iff m (mkDoc g)).mpr hx] at hf; cases hf
  rw [presentB_iff_mem_idsOf, idsOf_mkDoc] at hp
  simp only [List.mem_cons] at hp
  rcases hp with h | h | h | h
  · exact absurd h hm0
  · exact absurd h hm1
  · exact absurd h hm2
  · exact ⟨h, hwf.2 m h⟩

theorem presentB_headOnly (m : Nat) (h3 : 3 ≤ m) : presentB m headOnly = false := by
  have h0 : (0 == m) = false := by
    simp only [beq_eq_false_iff_ne, ne_eq]
    omega
  have h1 : (1 == m) = false := by
    simp only [beq_eq_false_iff_ne, ne_eq]
    omega
  simp [headOnly, presentB, h0, h1]

theorem siblingsSearch_eq_none_iff (m : Nat) (d : Node) :
    siblingsSearch m d = none ↔ presentB m d = false := by
  induction d with
  | nil => simp [siblingsSearch, presentB]
  | text s sib ih => simpa [siblingsSearch, presentB] using ih
  | elem j tg a c sib ihc ihs =>
    by_cases hj : (j == m) = true
    · simp [siblingsSearch, presentB, hj]
    · simp only [siblingsSearch, presentB, hj, Bool.false_eq_true, if_false, Bool.false_or]
      cases hc : siblingsSearch m c with
      | some r =>
        have hpc : presentB m c = true := by
          cases hx : presentB m c with
          | true => rfl
          | false => rw [ihc.mpr hx] at hc; cases hc
        simp [hc, hpc]
      | none =>
        have hpc : presentB m c = false := ihc.mp hc
        cases hs : siblingsSearch m sib with
        | some r =>
          have hps : presentB m sib = true := by
            cases hx : presentB m sib with
            | true => rfl
            | false => rw [ihs.mpr hx] at hs; cases hs
          simp [hc, hs, hpc, hps]
        | none =>
          have hps : presentB m sib = false := ihs.mp hs
          simp [hc, hs, hpc, hps]

theorem siblingsSearch_self (m j : Nat) (tg : String) (a : List (String × String))
    (c sib : Node) (hj : (j == m) = true) :
    siblingsSearch m (Node.elem j tg a c sib) = some (chainElemsExcept m sib) := by
  simp [siblingsSearch, hj]

theorem siblingsSearch_child (m j : Nat) (tg : String) (a : List (String × String))
    (c sib : Node) (hj : (j == m) = false) (hpc : presentB m c = true) :
    siblingsSearch m (Node.elem j tg a c sib) = siblingsSearch m c := by
  cases hc : siblingsSearch m c with
  | some r => simp [siblingsSearch, hj, hc]
  | none =>
    have := (siblingsSearch_eq_none_iff m c).mp hc
    rw [this] at hpc
    cases hpc

theorem siblingsSearch_sib (m j : Nat) (tg : String) (a : List (String × String))
    (c sib : Node) (hj : (j == m) = false) (hpc : presentB m c = false) :
    siblingsSearch m (Node.elem j tg a c sib) =
      (siblingsSearch m sib).map (fun r => if chainHasTop m sib then j :: r else r) := by
  have hc : siblingsSearch m c = none := (siblingsSearch_eq_none_iff m c).mpr hpc
  cases hs : siblingsSearch m sib with
  | some r => simp [siblingsSearch, hj, hc, hs]
  | none => simp [siblingsSearch, hj, hc, hs]

theorem mem_chainElemsExcept {x m : Nat} {d : Node} (h : x ∈ chainElemsExcept m d) :
    x ∈ sibElems d := by
  induction d with
  | nil => cases h
  | text s sib ih =>
    simp only [chainElemsExcept] at h
    simp only [sibElems]
    exact ih h
  | elem j tg a c sib ihc ihs =>
    by_cases hj : (j == m) = true
    · simp only [chainElemsExcept, hj, if_true] at h
      simp only [sibElems]
      exact List.mem_cons_of_mem j (ihs h)
    · have hj' : (j == m) = false := by
        cases hx : (j == m) with
        | false => rfl
        | true => exact absurd hx hj
      simp only [chainElemsExcept, hj', Bool.false_eq_true, if_false] at h
      simp only [sibElems]
      rcases List.mem_cons.mp h with rfl | h2
      · exact List.mem_cons_self x _
      · exact List.mem_cons_of_mem j (ihs h2)

theorem elemSiblingIds_subset_idsOf (m : Nat) (d : Node) :
    ∀ x ∈ elemSiblingIds m d, x ∈ idsOf d := by
  induction d with
  | nil => simp [elemSiblingIds, siblingsSearch]
  | text s sib ih => simpa [elemSiblingIds, siblingsSearch, idsOf] using ih
  | elem j tg a c sib ihc ihs =>
    intro x hx
    by_cases hj : (j == m) = true
    · rw [show elemSiblingIds m (Node.elem j tg a c sib) = chainElemsExcept m sib from by
        unfold elemSiblingIds
        rw [siblingsSearch_self m j tg a c sib hj]
        rfl] at hx
      simp only [idsOf, List.mem_cons, List.mem_append]
      exact Or.inr (Or.inr (mem_sibElems_idsOf (mem_chainElemsExcept hx)))
    · have hj' : (j == m) = false := by
        cases hxx : (j == m) with
        | false => rfl
        | true => exact absurd hxx hj
      by_cases hpc : presentB m c = true
      · rw [show elemSiblingIds m (Node.elem j tg a c sib) = elemSiblingIds m c from by
          unfold elemSiblingIds
          rw [siblingsSearch_child m j tg a c sib hj' hpc]] at hx
        simp only [idsOf, List.mem_cons, List.mem_append]
        exact Or.inr (Or.inl (ihc x hx))
      · have hpc' : presentB m c = false := by
          cases hxx : presentB m c with
          | false => rfl
          | true => exact absurd hxx hpc
        unfold elemSiblingIds at hx
        rw [siblingsSearch_sib m j tg a c sib hj' hpc'] at hx
        cases hs : siblingsSearch m sib with
        | none => rw [hs] at hx; cases hx
        | some r =>
          rw [hs] at hx
          have hx2 : x ∈ (if chainHasTop m sib then j :: r else r) := hx
          have hr : ∀ y ∈ r, y ∈ idsOf (Node.elem j tg a c sib) := by
            intro y hy
            have : y ∈ elemSiblingIds m sib := by
              unfold elemSiblingIds
              rw [hs]
              exact hy
            simp only [idsOf, List.mem_cons, List.mem_append]
            exact Or.inr (Or.inr (ihs y this))
          by_cases ht : chainHasTop m sib = true
          · rw [if_pos ht] at hx2
            rcases List.mem_cons.mp hx2 with rfl | hx3
            · simp [idsOf]
            · exact hr x hx3
          · rw [if_neg ht] at hx2
            exact hr x hx2

theorem chainElemsExcept_removeIds (S : List Nat) (m : Nat) (d : Node) :
    chainElemsExcept m (removeIds S d) =
      (chainElemsExcept m d).filter (fun k => !(S.contains k)) := by
  induction d with
  | nil => rfl
  | text s sib ih => simpa [removeIds, chainElemsExcept] using ih
  | elem j tg a c sib ihc ihs =>
    by_cases hjS : j ∈ S
    · have h1 : S.contains j = true := (contains_iff_mem S j).mpr hjS
      simp only [removeIds, if_pos h1]
      rw [ihs]
      by_cases hj : (j == m) = true
      · simp [chainElemsExcept, hj]
      · have hj' : (j == m) = false := by
          cases hx : (j == m) with
          | false => rfl
          | true => exact absurd hx hj
        simp [chainElemsExcept, hj', List.filter_cons, h1]
        rw [if_pos hjS]
    · have h1' : ¬ (S.contains j = true) := fun hx => hjS ((contains_iff_mem S j).mp hx)
      have h1 : S.contains j = false := by
        cases hx : S.contains j with
        | false => rfl
        | true => exact absurd hx h1'
      simp only [removeIds, if_neg h1']
      by_cases hj : (j == m) = true
      · simp only [chainElemsExcept, hj, if_true]
        exact ihs
      · have hj' : (j == m) = false := by
          cases hx : (j == m) with
          | false => rfl
          | true => exact absurd hx hj
        simp only [chainElemsExcept, hj', Bool.false_eq_true, if_false, List.filter_cons, h1,
          Bool.not_false, if_pos trivial]
        rw [ihs]

theorem chainHasTop_removeIds (S : List Nat) (m : Nat) (d : Node) (hm : m ∉ S) :
    chainHasTop m (removeIds S d) = chainHasTop m d := by
  induction d with
  | nil => rfl
  | text s sib ih => simpa [removeIds, chainHasTop] using ih
  | elem j tg a c sib ihc ihs =>
    by_cases hjS : j ∈ S
    · have h1 : S.contains j = true := (contains_iff_mem S j).mpr hjS
      have hj : (j == m) = false := by
        simp only [beq_eq_false_iff_ne, ne_eq]
        rintro rfl
        exact hm hjS
      simp only [removeIds, if_pos h1, chainHasTop, hj, Bool.false_or]
      exact ihs
    · have h1' : ¬ (S.contains j = true) := fun hx => hjS ((contains_iff_mem S j).mp hx)
      simp only [removeIds, if_neg h1', chainHasTop]
      rw [ihs]

theorem filter_eq_nil_of_mem (p : Nat → Bool) (l : List Nat)
    (h : ∀ a ∈ l, p a = false) : l.filter p = [] := by
  induction l with
  | nil => rfl
  | cons a l ih =>
    have ha := h a (List.mem_cons_self a l)
    simp only [List.filter_cons, ha, Bool.false_eq_true, if_false]
    exact ih fun b hb => h b (List.mem_cons_of_mem a hb)

theorem siblingsSearch_removeIds (S : List Nat) (m : Nat) (d : Node)
    (hnd : (idsOf d).Nodup) (hp : presentB m (removeIds S d) = true) :
    siblingsSearch m (removeIds S d) =
      (siblingsSearch m d).map (fun r => r.filter (fun k => !(S.contains k))) := by
  have hmS : m ∉ S := by
    intro hmm
    rw [presentB_removeIds_self S m d hmm] at hp
    cases hp
  induction d with
  | nil => cases hp
  | text s sib ih =>
    simp only [removeIds, siblingsSearch]
    exact ih (by simpa [idsOf] using hnd) (by simpa [removeIds, presentB] using hp)
  | elem j tg a c sib ihc ihs =>
    obtain ⟨hc, hs, hjc, hjs, hdisj⟩ := nodup_parts hnd
    by_cases hjS : j ∈ S
    · have h1 : S.contains j = true := (contains_iff_mem S j).mpr hjS
      rw [show removeIds S (Node.elem j tg a c sib) = removeIds S sib from by
        simp only [removeIds, if_pos h1]] at hp ⊢
      have hms : m ∈ idsOf sib :=
        (presentB_iff_mem_idsOf m sib).mp (presentB_removeIds_mono S m sib hp)
      have hjm : (j == m) = false := by
        simp only [beq_eq_false_iff_ne, ne_eq]
        rintro rfl
        exact hjs hms
      have hmc : presentB m c = false := presentB_false_of_disjoint hdisj hms
      rw [siblingsSearch_sib m j tg a c sib hjm hmc, ihs hs hp]
      cases hss : siblingsSearch m sib with
      | none => rfl
      | some r =>
        show some (r.filter (fun k => !(S.contains k))) =
          some ((if chainHasTop m sib then j :: r else r).filter (fun k => !(S.contains k)))
        by_cases ht : chainHasTop m sib = true
        · rw [if_pos ht]
          simp only [List.filter_cons, h1, Bool.not_true, Bool.false_eq_true, if_false]
        · rw [if_neg ht]
    · have h1' : ¬ (S.contains j = true) := fun hx => hjS ((contains_iff_mem S j).mp hx)
      rw [show removeIds S (Node.elem j tg a c sib) =
          Node.elem j tg a (removeIds S c) (removeIds S sib) from by
        simp only [removeIds, if_neg h1']] at hp ⊢
      by_cases hjm : (j == m) = true
      · rw [siblingsSearch_self m j tg a (removeIds S c) (removeIds S sib) hjm,
          siblingsSearch_self m j tg a c sib hjm]
        show some (chainElemsExcept m (removeIds S sib)) =
          some ((chainElemsExcept m sib).filter (fun k => !(S.contains k)))
        rw [chainElemsExcept_removeIds]
      · have hjm' : (j == m) = false := by
          cases hx : (j == m) with
          | false => rfl
          | true => exact absurd hx hjm
        by_cases hpc : presentB m (removeIds S c) = true
        · have hpc0 : presentB m c = true := presentB_removeIds_mono S m c hpc
          rw [siblingsSearch_child m j tg a (removeIds S c) (removeIds S sib) hjm' hpc,
            siblingsSearch_child m j tg a c sib hjm' hpc0]
          exact ihc hc hpc
        · have hps : presentB m (removeIds S sib) = true := by
            simp only [presentB, Bool.or_eq_true] at hp
            rcases hp with (h | h) | h
            · exact absurd h hjm
            · exact absurd h hpc
            · exact h
          have hms : m ∈ idsOf sib :=
            (presentB_iff_mem_idsOf m sib).mp (presentB_removeIds_mono S m sib hps)
          have hmc0 : presentB m c = false := presentB_false_of_disjoint hdisj hms
          have hmc1 : presentB m (removeIds S c) = false := by
            cases hx : presentB m (removeIds S c) with
            | false => rfl
            | true => exact absurd hx hpc
          rw [siblingsSearch_sib m j tg a (removeIds S c) (removeIds S sib) hjm' hmc1,
            siblingsSearch_sib m j tg a c sib hjm' hmc0, ihs hs hps]
          rw [chainHasTop_removeIds S m sib hmS]
          cases hss : siblingsSearch m sib with
          | none => rfl
          | some r =>
            show some (if chainHasTop m sib then
                j :: r.filter (fun k => !(S.contains k))
              else r.filter (fun k => !(S.contains k))) =
              some ((if chainHasTop m sib then j :: r else r).filter (fun k => !(S.contains k)))
            have h1 : S.contains j = false := by
              cases hx : S.contains j with
              | false => rfl
              | true => exact absurd hx h1'
            by_cases ht : chainHasTop m sib = true
            · rw [if_pos ht, if_pos ht]
              simp only [List.filter_cons, h1, Bool.not_false, if_pos trivial]
            · rw [if_neg ht, if_neg ht]

theorem elemSiblingIds_removeIds (S : List Nat) (m : Nat) (d : Node)
    (hnd : (idsOf d).Nodup) (hp : presentB m (removeIds S d) = true) :
    elemSiblingIds m (removeIds S d) =
      (elemSiblingIds m d).filter (fun k => !(S.contains k)) := by
  unfold elemSiblingIds
  rw [siblingsSearch_removeIds S m d hnd hp]
  cases h : siblingsSearch m d with
  | some l => rfl
  | none =>
    have := (siblingsSearch_eq_none_iff m d).mp h
    rw [presentB_removeIds_mono S m d hp] at this
    cases this

theorem presentB_mkDoc (m : Nat) (g : Node) (hm : 3 ≤ m) :
    presentB m (mkDoc g) = presentB m g := by
  have h0 : (0 == m) = false := by
    simp only [beq_eq_false_iff_ne, ne_eq]
    omega
  have h1 : (1 == m) = false := by
    simp only [beq_eq_false_iff_ne, ne_eq]
    omega
  have h2 : (2 == m) = false := by
    simp only [beq_eq_false_iff_ne, ne_eq]
    omega
  simp [mkDoc, presentB, h0, h1, h2]

theorem nextAllSearch_mkDoc (m : Nat) (g : Node) (hm : 3 ≤ m) :
    nextAllSearch m (mkDoc g) = nextAllSearch m g := by
  have h0 : (0 == m) = false := by
    simp only [beq_eq_false_iff_ne, ne_eq]
    omega
  have h1 : (1 == m) = false := by
    simp only [beq_eq_false_iff_ne, ne_eq]
    omega
  have h2 : (2 == m) = false := by
    simp only [beq_eq_false_iff_ne, ne_eq]
    omega
  cases hg : nextAllSearch m g with
  | some r => simp [mkDoc, nextAllSearch, h0, h1, h2, hg]
  | none => simp [mkDoc, nextAllSearch, h0, h1, h2, hg]

theorem nextAllIds_mkDoc (m : Nat) (g : Node) (hm : 3 ≤ m) :
    nextAllIds m (mkDoc g) = nextAllIds m g := by
  unfold nextAllIds
  rw [nextAllSearch_mkDoc m g hm]

theorem siblingsSearch_mkDoc (m : Nat) (g : Node) (hm : 3 ≤ m) :
    siblingsSearch m (mkDoc g) = siblingsSearch m g := by
  have h0 : (0 == m) = false := by
    simp only [beq_eq_false_iff_ne, ne_eq]
    omega
  have h1 : (1 == m) = false := by
    simp only [beq_eq_false_iff_ne, ne_eq]
    omega
  have h2 : (2 == m) = false := by
    simp only [beq_eq_false_iff_ne, ne_eq]
    omega
  cases hg : siblingsSearch m g with
  | some r => simp [mkDoc, siblingsSearch, chainHasTop, h0, h1, h2, hg]
  | none => simp [mkDoc, siblingsSearch, h0, h1, h2, hg]

theorem elemSiblingIds_mkDoc (m : Nat) (g : Node) (hm : 3 ≤ m) :
    elemSiblingIds m (mkDoc g) = elemSiblingIds m g := by
  unfold elemSiblingIds
  rw [siblingsSearch_mkDoc m g hm]

theorem parentSearch_mkDoc (m : Nat) (g : Node) (hm : 3 ≤ m) :
    parentSearch none m (mkDoc g) = parentSearch (some 2) m g := by
  have h0 : (0 == m) = false := by
    simp only [beq_eq_false_iff_ne, ne_eq]
    omega
  have h1 : (1 == m) = false := by
    simp only [beq_eq_false_iff_ne, ne_eq]
    omega
  have h2 : (2 == m) = false := by
    simp only [beq_eq_false_iff_ne, ne_eq]
    omega
  cases hg : parentSearch (some 2) m g with
  | some r => simp [mkDoc, parentSearch, h0, h1, h2, hg]
  | none => simp [mkDoc, parentSearch, h0, h1, h2, hg]

theorem parentSearch_result_mem (m : Nat) (d : Node) :
    ∀ (cur r : Option Nat), parentSearch cur m d = some r →
      r = cur ∨ ∃ p, r = some p ∧ p ∈ idsOf d := by
  induction d with
  | nil =>
    intro cur r h
    cases h
  | text s sib ih =>
    intro cur r h
    simp only [parentSearch] at h
    rcases ih cur r h with h1 | ⟨p, hp1, hp2⟩
    · exact Or.inl h1
    · exact Or.inr ⟨p, hp1, by simpa [idsOf] using hp2⟩
  | elem j tg a c sib ihc ihs =>
    intro cur r h
    by_cases hj : (j == m) = true
    · simp only [parentSearch, hj, if_true] at h
      injection h with h
      exact Or.inl h.symm
    · have hj' : (j == m) = false := by
        cases hx : (j == m) with
        | false => rfl
        | true => exact absurd hx hj
      simp only [parentSearch, hj', Bool.false_eq_true, if_false] at h
      cases hcc : parentSearch (some j) m c with
      | some r2 =>
        rw [hcc] at h
        injection h with h
        subst h
        rcases ihc (some j) r2 hcc with h1 | ⟨p, hp1, hp2⟩
        · refine Or.inr ⟨j, h1, ?_⟩
          simp [idsOf]
        · refine Or.inr ⟨p, hp1, ?_⟩
          simp only [idsOf, List.mem_cons, List.mem_append]
          exact Or.inr (Or.inl hp2)
      | none =>
        rw [hcc] at h
        rcases ihs cur r h with h1 | ⟨p, hp1, hp2⟩
        · exact Or.inl h1
        · refine Or.inr ⟨p, hp1, ?_⟩
          simp only [idsOf, List.mem_cons, List.mem_append]
          exact Or.inr (Or.inr hp2)

theorem parentSearch_ancestor (m p : Nat) (d : Node) :
    ∀ cur : Option Nat, parentSearch cur m d = some (some p) →
      p ∈ ancestorIds m d ∨ (cur = some p ∧ chainHasTop m d = true) := by
  induction d with
  | nil =>
    intro cur h
    cases h
  | text s sib ih =>
    intro cur h
    simp only [parentSearch] at h
    simp only [ancestorIds, chainHasTop]
    exact ih cur h
  | elem j tg a c sib ihc ihs =>
    intro cur h
    by_cases hj : (j == m) = true
    · simp only [parentSearch, hj, if_true] at h
      injection h with h
      right
      refine ⟨h, ?_⟩
      simp [chainHasTop, hj]
    · have hj' : (j == m) = false := by
        cases hx : (j == m) with
        | false => rfl
        | true => exact absurd hx hj
      simp only [parentSearch, hj', Bool.false_eq_true, if_false] at h
      cases hcc : parentSearch (some j) m c with
      | some r2 =>
        rw [hcc] at h
        injection h with h
        subst h
        have hpc : presentB m c = true := by
          cases hx : presentB m c with
          | true => rfl
          | false => rw [(parentSearch_eq_none_iff (some j) m c).mpr hx] at hcc; cases hcc
        left
        simp only [ancestorIds, hj', Bool.false_eq_true, if_false, hpc, if_true]
        rcases ihc (some j) hcc with h1 | ⟨h1, _⟩
        · exact List.mem_cons_of_mem j h1
        · injection h1 with h1
          rw [h1]
          exact List.mem_cons_self p _
      | none =>
        rw [hcc] at h
        have hpc : presentB m c = false := (parentSearch_eq_none_iff (some j) m c).mp hcc
        rcases ihs cur h with h1 | ⟨h1, h2⟩
        · left
          simp only [ancestorIds, hj', Bool.false_eq_true, if_false, hpc, if_false]
          exact h1
        · right
          refine ⟨h1, ?_⟩
          simp [chainHasTop, hj', h2]

theorem parentOf_some_iff (m : Nat) (d : Node) (p : Nat) :
    parentOf m d = some p ↔ parentSearch none m d = some (some p) := by
  unfold parentOf
  cases h : parentSearch none m d with
  | none => simp
  | some r => simp

theorem parentOf_mem_ancestorIds (m p : Nat) (d : Node) (h : parentOf m d = some p) :
    p ∈ ancestorIds m d := by
  have h2 := (parentOf_some_iff m d p).mp h
  rcases parentSearch_ancestor m p d none h2 with h3 | ⟨h3, _⟩
  · exact h3
  · cases h3

theorem parentOf_mkDoc_char (m : Nat) (g : Node) (hm : 3 ≤ m) (p : Nat)
    (h : parentOf m (mkDoc g) = some p) : p = 2 ∨ p ∈ idsOf g := by
  have h2 := (parentOf_some_iff m (mkDoc g) p).mp h
  rw [parentSearch_mkDoc m g hm] at h2
  rcases parentSearch_result_mem m g (some 2) (some p) h2 with h3 | ⟨q, hq1, hq2⟩
  · left
    injection h3
  · right
    injection hq1 with hq1
    rw [hq1]
    exact hq2

theorem parentOf_mkDoc_present (m : Nat) (g : Node) (hm : 3 ≤ m)
    (hp : presentB m (mkDoc g) = true) : ∃ p, parentOf m (mkDoc g) = some p := by
  have hpg : presentB m g = true := by
    rw [presentB_mkDoc m g hm] at hp
    exact hp
  cases hps : parentSearch (some 2) m g with
  | none =>
    rw [(parentSearch_eq_none_iff (some 2) m g).mp hps] at hpg
    cases hpg
  | some r =>
    rcases parentSearch_result_mem m g (some 2) r hps with h3 | ⟨q, hq1, _⟩
    · refine ⟨2, ?_⟩
      rw [parentOf_some_iff, parentSearch_mkDoc m g hm, hps, h3]
    · refine ⟨q, ?_⟩
      rw [parentOf_some_iff, parentSearch_mkDoc m g hm, hps, hq1]

theorem removeIds_two_mkDoc (g : Node) : removeIds [2] (mkDoc g) = headOnly := rfl

theorem WfChain_removeIds (S : List Nat) (g : Node) (h : WfChain g) :
    WfChain (removeIds S g) := by
  obtain ⟨hnd, hge⟩ := h
  exact ⟨nodup_removeIds S g hnd, fun i hi => hge i ((idsOf_removeIds_sublist S g).mem hi)⟩

theorem findElem_headOnly_zero :
    findElem 0 headOnly = some ("html", [], Node.elem 1 "head" [] Node.nil Node.nil) := rfl

theorem findElem_headOnly_one :
    findElem 1 headOnly = some ("head", [], Node.nil) := rfl

theorem matchedIds_headOnly (r : CleanRule) (hr : ruleGood r = true) :
    matchedIds headOnly r = [] := by
  rw [List.eq_nil_iff_forall_not_mem]
  intro m hm
  have hnd : (idsOf headOnly).Nodup := by decide
  have hp : m ∈ idsOf headOnly :=
    (presentB_iff_mem_idsOf m headOnly).mp (presentB_of_mem_matchedIds hm)
  rw [mem_matchedIds_iff headOnly r m hnd] at hm
  obtain ⟨t, a, c, hf, hq⟩ := hm
  have hm01 : m = 0 ∨ m = 1 := by
    have : idsOf headOnly = [0, 1] := rfl
    rw [this] at hp
    simpa using hp
  rcases hm01 with rfl | rfl
  · rw [findElem_headOnly_zero] at hf
    injection hf with hf
    injection hf with he1 hf
    injection hf with he2 he3
    rw [← he1, ← he2] at hq
    rw [entryMatches_scaffold r hr "html" (Or.inl rfl) c] at hq
    cases hq
  · rw [findElem_headOnly_one] at hf
    injection hf with hf
    injection hf with he1 hf
    injection hf with he2 he3
    rw [← he1, ← he2] at hq
    rw [entryMatches_scaffold r hr "head" (Or.inr (Or.inl rfl)) c] at hq
    cases hq

theorem matchedIds_mkDoc_nil (r : CleanRule) (hr : ruleGood r = true) :
    matchedIds (mkDoc Node.nil) r = [] := by
  rw [List.eq_nil_iff_forall_not_mem]
  intro m hm
  have hwfnil : WfChain Node.nil :=
    ⟨List.nodup_nil, fun i hi => absurd hi (List.not_mem_nil i)⟩
  have := matchedIds_mkDoc_mem Node.nil hwfnil r hr m hm
  exact absurd this.1 (List.not_mem_nil m)

theorem RuleDone_of_matched_nil {r : CleanRule} {d : Node} (h : matchedIds d r = []) :
    RuleDone r d := by
  constructor
  · intro _ m hm
    rw [h] at hm
    cases hm
  · intro _
    exact h

theorem RuleDone_headOnly (r : CleanRule) (hr : ruleGood r = true) : RuleDone r headOnly :=
  RuleDone_of_matched_nil (matchedIds_headOnly r hr)

theorem RuleDone_removeIds (S : List Nat) (d : Node) (hnd : (idsOf d).Nodup)
    (r : CleanRule) (hr : ruleGood r = true) (hd : RuleDone r d) :
    RuleDone r (removeIds S d) := by
  constructor
  · intro hact m hm
    obtain ⟨hm0, hp⟩ := matchedIds_shrink S d hnd r hr m hm
    have hsib := hd.1 hact m hm0
    rw [elemSiblingIds_removeIds S m d hnd hp, hsib]
    rfl
  · intro hact
    rw [List.eq_nil_iff_forall_not_mem]
    intro m hm
    obtain ⟨hm0, hp⟩ := matchedIds_shrink S d hnd r hr m hm
    rw [hd.2 hact] at hm0
    cases hm0

theorem matchedIds_removeIds_nil (S : List Nat) (d : Node) (hnd : (idsOf d).Nodup)
    (r : CleanRule) (hr : ruleGood r = true)
    (habs : ∀ m ∈ matchedIds d r, presentB m (removeIds S d) = false) :
    matchedIds (removeIds S d) r = [] := by
  rw [List.eq_nil_iff_forall_not_mem]
  intro m hm
  obtain ⟨hm0, hp⟩ := matchedIds_shrink S d hnd r hr m hm
  rw [habs m hm0] at hp
  cases hp

theorem applyCleanRule_eq (d : Node) (r : CleanRule) :
    applyCleanRule d r = executeAction d (matchedIds d r) r.action := rfl

theorem applyCleanRule_done (d : Node) (r : CleanRule) (hd : RuleDone r d) :
    applyCleanRule d r = d := by
  rw [applyCleanRule_eq]
  cases hM : matchedIds d r with
  | nil => rfl
  | cons x xs =>
    unfold executeAction
    rw [if_neg (by simp : ¬ (((x :: xs : List Nat)).isEmpty = true))]
    by_cases hko : (r.action == "keep-only") = true
    · rw [if_pos hko]
      have hact : r.action = "keep-only" := by rwa [beq_iff_eq] at hko
      have heq : removeIds ((x :: xs).flatMap (fun i => elemSiblingIds i d)) d =
          removeIds [] d := by
        apply removeIds_membership_congr
        intro i
        constructor
        · intro hi
          rw [List.mem_flatMap] at hi
          obtain ⟨m, hm, hi2⟩ := hi
          rw [← hM] at hm
          rw [hd.1 hact m hm] at hi2
          cases hi2
        · intro hi
          cases hi
      rw [heq, removeIds_empty]
    · rw [if_neg hko]
      by_cases hrm : (r.action == "remove") = true
      · exfalso
        have hact : r.action = "remove" := by rwa [beq_iff_eq] at hrm
        have := hd.2 (Or.inl hact)
        rw [hM] at this
        cases this
      · rw [if_neg hrm]
        by_cases hra : (r.action == "remove-after") = true
        · exfalso
          have hact : r.action = "remove-after" := by rwa [beq_iff_eq] at hra
          have := hd.2 (Or.inr (Or.inl hact))
          rw [hM] at this
          cases this
        · rw [if_neg hra]
          by_cases hrp : (r.action == "remove-parent-after") = true
          · exfalso
            have hact : r.action = "remove-parent-after" := by rwa [beq_iff_eq] at hrp
            have := hd.2 (Or.inr (Or.inr hact))
            rw [hM] at this
            cases this
          · rw [if_neg hrp]

theorem foldl_applyCleanRule_done (rules : List CleanRule) (d : Node)
    (hdone : ∀ r ∈ rules, RuleDone r d) :
    rules.foldl applyCleanRule d = d := by
  induction rules with
  | nil => rfl
  | cons r rules ih =>
    rw [List.foldl_cons, applyCleanRule_done d r (hdone r (List.mem_cons_self r rules))]
    exact ih (fun r0 h0 => hdone r0 (List.mem_cons_of_mem r h0))

theorem removeParentAfterStep_mkDoc (g : Node) (hwf : WfChain g) (m : Nat) (hm : 3 ≤ m) :
    ((∃ g', WfChain g' ∧ removeParentAfterStep (mkDoc g) m = mkDoc g') ∨
      removeParentAfterStep (mkDoc g) m = headOnly) ∧
    presentB m (removeParentAfterStep (mkDoc g) m) = false := by
  by_cases hp : presentB m (mkDoc g) = true
  · obtain ⟨p, hpar⟩ := parentOf_mkDoc_present m g hm hp
    have hstep : removeParentAfterStep (mkDoc g) m =
        removeIds (nextAllIds p (mkDoc g) ++ [p]) (mkDoc g) := by
      unfold removeParentAfterStep
      rw [if_pos hp, hpar]
      exact removeIds_removeIds [p] (nextAllIds p (mkDoc g)) (mkDoc g)
    have hanc : p ∈ ancestorIds m (mkDoc g) := parentOf_mem_ancestorIds m p (mkDoc g) hpar
    have hpmem : p ∈ nextAllIds p (mkDoc g) ++ [p] := by simp
    have habs : presentB m (removeParentAfterStep (mkDoc g) m) = false := by
      rw [hstep]
      exact presentB_removeIds_ancestor _ m p (mkDoc g) (nodup_mkDoc g hwf) hanc hpmem
    refine ⟨?_, habs⟩
    rcases parentOf_mkDoc_char m g hm p hpar with rfl | hpg
    · right
      rw [hstep]
      have hna : nextAllIds 2 (mkDoc g) = [] := rfl
      rw [hna]
      exact removeIds_two_mkDoc g
    · left
      have hT : ∀ x ∈ nextAllIds p (mkDoc g) ++ [p], x ∈ idsOf g := by
        intro x hx
        rcases List.mem_append.mp hx with hx | hx
        · rw [nextAllIds_mkDoc p g (hwf.2 p hpg)] at hx
          exact nextAllIds_subset_idsOf p g x hx
        · rw [List.mem_singleton] at hx
          rw [hx]
          exact hpg
      have h0 : 0 ∉ nextAllIds p (mkDoc g) ++ [p] := by
        intro hx
        have := hwf.2 0 (hT 0 hx)
        omega
      have h1 : 1 ∉ nextAllIds p (mkDoc g) ++ [p] := by
        intro hx
        have := hwf.2 1 (hT 1 hx)
        omega
      have h2 : 2 ∉ nextAllIds p (mkDoc g) ++ [p] := by
        intro hx
        have := hwf.2 2 (hT 2 hx)
        omega
      refine ⟨removeIds (nextAllIds p (mkDoc g) ++ [p]) g, WfChain_removeIds _ g hwf, ?_⟩
      rw [hstep, removeIds_mkDoc _ g h0 h1 h2]
  · have hp' : presentB m (mkDoc g) = false := by
      cases hx : presentB m (mkDoc g) with
      | false => rfl
      | true => exact absurd hx hp
    have hstep : removeParentAfterStep (mkDoc g) m = mkDoc g := by
      unfold removeParentAfterStep
      rw [if_neg hp]
    rw [hstep]
    exact ⟨Or.inl ⟨g, hwf, rfl⟩, hp'⟩

theorem removeParentAfterStep_headOnly (m : Nat) (hm : 3 ≤ m) :
    removeParentAfterStep headOnly m = headOnly := by
  unfold removeParentAfterStep
  rw [presentB_headOnly m hm]
  rw [if_neg]
  simp

theorem removeParentAfterFold (rest : List Nat) :
    ∀ (e : Node),
      ((∃ g, WfChain g ∧ e = mkDoc g) ∨ e = headOnly) →
      (∀ m ∈ rest, 3 ≤ m) →
      ((∃ g, WfChain g ∧ rest.foldl removeParentAfterStep e = mkDoc g) ∨
        rest.foldl removeParentAfterStep e = headOnly) ∧
      (∀ m ∈ rest, presentB m (rest.foldl removeParentAfterStep e) = false) := by
  induction rest with
  | nil =>
    intro e hshape hmem
    refine ⟨hshape, ?_⟩
    intro m hm
    cases hm
  | cons m rest ih =>
    intro e hshape hmem
    rw [List.foldl_cons]
    have hm3 : 3 ≤ m := hmem m (List.mem_cons_self m rest)
    have hstep : ((∃ g', WfChain g' ∧ removeParentAfterStep e m = mkDoc g') ∨
        removeParentAfterStep e m = headOnly) ∧
        presentB m (removeParentAfterStep e m) = false := by
      rcases hshape with ⟨g, hwf, rfl⟩ | rfl
      · exact removeParentAfterStep_mkDoc g hwf m hm3
      · rw [removeParentAfterStep_headOnly m hm3]
        exact ⟨Or.inr rfl, presentB_headOnly m hm3⟩
    obtain ⟨hshape1, habs1⟩ := hstep
    have hrec := ih (removeParentAfterStep e m) hshape1
      (fun x hx => hmem x (List.mem_cons_of_mem m hx))
    refine ⟨hrec.1, ?_⟩
    intro x hx
    rcases List.mem_cons.mp hx with rfl | hx2
    · obtain ⟨T, hT⟩ := exists_removal_foldl removeParentAfterStep
        removeParentAfterStep_shape rest (removeParentAfterStep e x)
      rw [hT]
      exact presentB_removeIds_of_absent T x _ habs1
    · exact hrec.2 x hx2

theorem applyCleanRule_mkDoc (g : Node) (hwf : WfChain g) (r : CleanRule)
    (hr : ruleGood r = true) :
    ((∃ g', WfChain g' ∧ applyCleanRule (mkDoc g) r = mkDoc g') ∨
      applyCleanRule (mkDoc g) r = headOnly) ∧
    RuleDone r (applyCleanRule (mkDoc g) r) := by
  have hnd : (idsOf (mkDoc g)).Nodup := nodup_mkDoc g hwf
  rw [applyCleanRule_eq]
  cases hM : matchedIds (mkDoc g) r with
  | nil =>
    have he : executeAction (mkDoc g) [] r.action = mkDoc g := rfl
    rw [he]
    exact ⟨Or.inl ⟨g, hwf, rfl⟩, RuleDone_of_matched_nil hM⟩
  | cons x xs =>
    have hmem3 : ∀ m ∈ (x :: xs : List Nat), m ∈ idsOf g ∧ 3 ≤ m := by
      intro m hm
      exact matchedIds_mkDoc_mem g hwf r hr m (by rw [hM]; exact hm)
    unfold executeAction
    rw [if_neg (by simp : ¬ (((x :: xs : List Nat)).isEmpty = true))]
    by_cases hko : (r.action == "keep-only") = true
    · rw [if_pos hko]
      have hact : r.action = "keep-only" := by rwa [beq_iff_eq] at hko
      have hSk3 : ∀ y ∈ (x :: xs).flatMap (fun i => elemSiblingIds i (mkDoc g)),
          y ∈ idsOf g := by
        intro y hy
        rw [List.mem_flatMap] at hy
        obtain ⟨m, hm, hy2⟩ := hy
        rw [elemSiblingIds_mkDoc m g (hmem3 m hm).2] at hy2
        exact elemSiblingIds_subset_idsOf m g y hy2
      have h0 : 0 ∉ (x :: xs).flatMap (fun i => elemSiblingIds i (mkDoc g)) := by
        intro hx0
        have := hwf.2 0 (hSk3 0 hx0)
        omega
      have h1 : 1 ∉ (x :: xs).flatMap (fun i => elemSiblingIds i (mkDoc g)) := by
        intro hx0
        have := hwf.2 1 (hSk3 1 hx0)
        omega
      have h2 : 2 ∉ (x :: xs).flatMap (fun i => elemSiblingIds i (mkDoc g)) := by
        intro hx0
        have := hwf.2 2 (hSk3 2 hx0)
        omega
      have hres : removeIds ((x :: xs).flatMap (fun i => elemSiblingIds i (mkDoc g))) (mkDoc g)
          = mkDoc (removeIds ((x :: xs).flatMap (fun i => elemSiblingIds i (mkDoc g))) g) :=
        removeIds_mkDoc _ g h0 h1 h2
      constructor
      · rw [hres]
        exact Or.inl ⟨_, WfChain_removeIds _ g hwf, rfl⟩
      · constructor
        · intro _ m hm
          obtain ⟨hm0, hp⟩ := matchedIds_shrink _ (mkDoc g) hnd r hr m hm
          rw [elemSiblingIds_removeIds _ m (mkDoc g) hnd hp]
          apply filter_eq_nil_of_mem
          intro k hk
          rw [hM] at hm0
          have hkS : k ∈ (x :: xs).flatMap (fun i => elemSiblingIds i (mkDoc g)) := by
            rw [List.mem_flatMap]
            exact ⟨m, hm0, hk⟩
          rw [(contains_iff_mem _ k).mpr hkS]
          rfl
        · intro hact2
          rcases hact2 with h' | h' | h'
          · rw [hact] at h'
            exact absurd h' (by decide)
          · rw [hact] at h'
            exact absurd h' (by decide)
          · rw [hact] at h'
            exact absurd h' (by decide)
    · rw [if_neg hko]
      by_cases hrm : (r.action == "remove") = true
      · rw [if_pos hrm]
        have h0 : (0 : Nat) ∉ (x :: xs : List Nat) := by
          intro hx0
          have := (hmem3 0 hx0).2
          omega
        have h1 : (1 : Nat) ∉ (x :: xs : List Nat) := by
          intro hx0
          have := (hmem3 1 hx0).2
          omega
        have h2 : (2 : Nat) ∉ (x :: xs : List Nat) := by
          intro hx0
          have := (hmem3 2 hx0).2
          omega
        constructor
        · rw [removeIds_mkDoc _ g h0 h1 h2]
          exact Or.inl ⟨_, WfChain_removeIds _ g hwf, rfl⟩
        · apply RuleDone_of_matched_nil
          apply matchedIds_removeIds_nil _ (mkDoc g) hnd r hr
          intro m hm
          rw [hM] at hm
          exact presentB_removeIds_self _ m (mkDoc g) hm
      · rw [if_neg hrm]
        by_cases hra : (r.action == "remove-after") = true
        · rw [if_pos hra]
          have hndM : ((x :: xs : List Nat)).Nodup := by
            have hsub := matchedIds_sublist (mkDoc g) r
            rw [hM] at hsub
            exact hnd.sublist hsub
          have hfold := removeAfterFold_invariant (mkDoc g) hnd (x :: xs) [] []
            (by simpa using hndM)
            (by
              intro y hy
              simp only [List.nil_append] at hy
              have hsub := matchedIds_sublist (mkDoc g) r
              rw [hM] at hsub
              exact hsub.mem hy)
            (by
              intro y hy
              cases hy)
            (by
              intro m' hm'
              cases hm')
          obtain ⟨Tp, hT1, hT2, hT3⟩ := hfold
          rw [removeIds_empty] at hT1
          have h0 : 0 ∉ Tp := by
            intro hx0
            obtain ⟨m, hm, hy2⟩ := hT2 0 hx0
            simp only [List.nil_append] at hm
            rcases List.mem_cons.mp hy2 with he | hy3
            · have := (hmem3 m hm).2
              omega
            · rw [nextAllIds_mkDoc m g (hmem3 m hm).2] at hy3
              have := hwf.2 0 (nextAllIds_subset_idsOf m g 0 hy3)
              omega
          have h1 : 1 ∉ Tp := by
            intro hx0
            obtain ⟨m, hm, hy2⟩ := hT2 1 hx0
            simp only [List.nil_append] at hm
            rcases List.mem_cons.mp hy2 with he | hy3
            · have := (hmem3 m hm).2
              omega
            · rw [nextAllIds_mkDoc m g (hmem3 m hm).2] at hy3
              have := hwf.2 1 (nextAllIds_subset_idsOf m g 1 hy3)
              omega
          have h2 : 2 ∉ Tp := by
            intro hx0
            obtain ⟨m, hm, hy2⟩ := hT2 2 hx0
            simp only [List.nil_append] at hm
            rcases List.mem_cons.mp hy2 with he | hy3
            · have := (hmem3 m hm).2
              omega
            · rw [nextAllIds_mkDoc m g (hmem3 m hm).2] at hy3
              have := hwf.2 2 (nextAllIds_subset_idsOf m g 2 hy3)
              omega
          constructor
          · rw [hT1, removeIds_mkDoc Tp g h0 h1 h2]
            exact Or.inl ⟨_, WfChain_removeIds Tp g hwf, rfl⟩
          · rw [hT1]
            apply RuleDone_of_matched_nil
            apply matchedIds_removeIds_nil Tp (mkDoc g) hnd r hr
            intro m hm
            rw [hM] at hm
            exact (hT3 m (by simpa using hm)).1
        · rw [if_neg hra]
          by_cases hrp : (r.action == "remove-parent-after") = true
          · rw [if_pos hrp]
            have hfold := removeParentAfterFold (x :: xs) (mkDoc g)
              (Or.inl ⟨g, hwf, rfl⟩) (fun m hm => (hmem3 m hm).2)
            obtain ⟨Tp, hT1⟩ := exists_removal_foldl removeParentAfterStep
              removeParentAfterStep_shape (x :: xs) (mkDoc g)
            constructor
            · exact hfold.1
            · rw [hT1]
              apply RuleDone_of_matched_nil
              apply matchedIds_removeIds_nil Tp (mkDoc g) hnd r hr
              intro m hm
              rw [hM] at hm
              have := hfold.2 m hm
              rw [hT1] at this
              exact this
          · rw [if_neg hrp]
            constructor
            · exact Or.inl ⟨g, hwf, rfl⟩
            · constructor
              · intro hact
                have : (r.action == "keep-only") = true := by
                  simp [hact]
                exact absurd this hko
              · intro hact
                rcases hact with h' | h' | h'
                · exact absurd (show (r.action == "remove") = true by simp [h']) hrm
                · exact absurd (show (r.action == "remove-after") = true by simp [h']) hra
                · exact absurd (show (r.action == "remove-parent-after") = true by simp [h']) hrp

theorem rules_fold_master (rules : List CleanRule) (hrules : ∀ r ∈ rules, ruleGood r = true)
    (d : Node) (hshape : (∃ g, WfChain g ∧ d = mkDoc g) ∨ d = headOnly) :
    ((∃ g, WfChain g ∧ rules.foldl applyCleanRule d = mkDoc g) ∨
      rules.foldl applyCleanRule d = headOnly) ∧
    (∀ r ∈ rules, RuleDone r (rules.foldl applyCleanRule d)) := by
  induction rules generalizing d with
  | nil =>
    refine ⟨hshape, ?_⟩
    intro r hr
    cases hr
  | cons r rules ih =>
    have hrG : ruleGood r = true := hrules r (List.mem_cons_self r rules)
    rw [List.foldl_cons]
    have hstep : ((∃ g', WfChain g' ∧ applyCleanRule d r = mkDoc g') ∨
        applyCleanRule d r = headOnly) ∧ RuleDone r (applyCleanRule d r) := by
      rcases hshape with ⟨g, hwf, rfl⟩ | rfl
      · exact applyCleanRule_mkDoc g hwf r hrG
      · rw [applyCleanRule_done headOnly r (RuleDone_headOnly r hrG)]
        exact ⟨Or.inr rfl, RuleDone_headOnly r hrG⟩
    obtain ⟨hshape1, hdone1⟩ := hstep
    have hrec := ih (fun r0 h0 => hrules r0 (List.mem_cons_of_mem r h0))
      (applyCleanRule d r) hshape1
    refine ⟨hrec.1, ?_⟩
    intro r0 h0
    rcases List.mem_cons.mp h0 with rfl | h0a
    · obtain ⟨T, hT⟩ := exists_removal_foldl applyCleanRule applyCleanRule_removal_shape
        rules (applyCleanRule d r0)
      rw [hT]
      have hnd1 : (idsOf (applyCleanRule d r0)).Nodup := by
        rcases hshape1 with ⟨g', hwf', he⟩ | he
        · rw [he]
          exact nodup_mkDoc g' hwf'
        · rw [he]
          decide
      exact RuleDone_removeIds T (applyCleanRule d r0) hnd1 r0 hrG hdone1
    · exact hrec.2 r0 h0a

theorem findBodyChain_mkDoc (g : Node) : findBodyChain (mkDoc g) = some g := rfl

theorem findBodyChain_headOnly : findBodyChain headOnly = none := rfl

/-- C1 amended: the rule engine is idempotent for node-local rule sets.  For
every well-formed fragment and every list of rules that carry no text
filter, use only node-local simple selectors (tag, class, id,
attribute-substring — no :empty), and never match the html, head or body
scaffolding, running clean a second time with the same rules reproduces the
first output: after the first run every remove-family rule matches nothing
and every keep-only rule's matches have no siblings left, so every rule is
a no-op.  (Unrestricted idempotence is refuted by the :empty
counterexample.) -/
theorem clean_idempotent_local (f : Node) (rules : List CleanRule) (hwf : WfChain f)
    (hrules : ∀ r ∈ rules, ruleGood r = true) :
    cleanHtml (cleanHtml f rules) rules = cleanHtml f rules := by
  obtain ⟨hshape, hdone⟩ := rules_fold_master rules hrules (mkDoc f) (Or.inl ⟨f, hwf, rfl⟩)
  rcases hshape with ⟨g1, hwfg1, he⟩ | he
  · have hout : cleanHtml f rules = g1 := by
      unfold cleanHtml
      rw [he, findBodyChain_mkDoc]
      rfl
    rw [hout]
    unfold cleanHtml
    have hdone1 : ∀ r ∈ rules, RuleDone r (mkDoc g1) := by
      intro r hr
      have := hdone r hr
      rwa [he] at this
    rw [foldl_applyCleanRule_done rules (mkDoc g1) hdone1, findBodyChain_mkDoc]
    rfl
  · have hout : cleanHtml f rules = Node.nil := by
      unfold cleanHtml
      rw [he, findBodyChain_headOnly]
      rfl
    rw [hout]
    unfold cleanHtml
    have hdone2 : ∀ r ∈ rules, RuleDone r (mkDoc Node.nil) := by
      intro r hr
      exact RuleDone_of_matched_nil (matchedIds_mkDoc_nil r (hrules r hr))
    rw [foldl_applyCleanRule_done rules (mkDoc Node.nil) hdone2, findBodyChain_mkDoc]
    rfl

/-- C1 amended witness: a concrete well-formed fragment and a node-local
class-selector remove rule, with both hypotheses checked by evaluation. -/
theorem clean_idempotent_local_witness :
    WfChain exNestedDiv ∧ (∀ r ∈ [ruleAd], ruleGood r = true) ∧
      cleanHtml (cleanHtml exNestedDiv [ruleAd]) [ruleAd] =
        cleanHtml exNestedDiv [ruleAd] :=
  ⟨by constructor <;> decide, by decide,
    clean_idempotent_local exNestedDiv [ruleAd] (by constructor <;> decide) (by decide)⟩
